import Mathlib

/-!
# Neural-Automata: the simulation core of `src/main.c`

A shallow embedding of the cellular-automaton core (`get_index`, `clamp`,
`get_neighbors_sum`, `simulation`, `put_pixel`, `erase_pixel`, the three presets
of `settings[]` with their activations) and theorems about it.

## Modelling choices

* C `int` is `Int`.  Every integer expression evaluated on the paths studied
  here stays far inside the 32-bit range, so no wrap-around is modelled; C `%`
  is the truncating remainder `Int.tmod`.
* C `float` is an abstract type `F` with the operations the program uses
  (`CFloat F`).  Each float *denotes* an `FVal`: NaN, an infinity, or a finite
  rational (`-0.0` and `0.0` both denote 0).  Comparisons are decided on the
  denotation the IEEE-754 way: every comparison with NaN is false, and
  `-0.0 == 0.0`.  Arithmetic is not assumed to be exact, associative or
  commutative.  The laws of `CFloat` are facts of IEEE-754 binary32 arithmetic
  in which every operation is rounded to `float`: an integer of magnitude at
  most `2^24` converts exactly, conversion from `int` is monotone, conversion to
  `int` truncates, and a sum or product of finite operands whose exact value is
  a float is that value.
* `FVal` itself, with exact arithmetic on the finite values and the IEEE rules
  for NaN and the infinities, is an instance of `CFloat`; the definitions are
  run on it at concrete inputs.
* The waves and worms presets use further operations (decimal constants,
  division, `fabsf`), collected in `CFloatMath` with their laws.  `powf` of
  `math.h` is a parameter of `activation_worms`; the facts assumed of it for the
  presets, `powf_laws`, are two exact cases fixed by Annex F of the C standard.
* Away from zero `activation_worms` is studied twice.  Its expression read over
  the reals with the real power is `activation_worms_expr Real.rpow`.  The float
  that the code returns is bounded with the laws of `CFloatIEEE` about
  infinities and monotone rounding, and with two more sets of hypotheses on
  `powf`, each stated where it is used: `powf_overflow_laws` (overflow gives plus
  infinity) and `powf_bound_laws` (the sign and size of a rounded power).
* `global.board` is passed explicitly: a `Board F` maps an `int` index to the
  float stored there.  The uninitialised local `new_board` of `simulation` is an
  explicit argument, so that nothing is assumed about its initial contents.
-/

namespace NeuralAutomata

/-! ## Float denotations -/

/-- What a C `float` denotes: not-a-number, minus infinity, a finite rational, or
plus infinity. -/
inductive FVal where
  | nan : FVal
  | ninf : FVal
  | fin (q : ℚ) : FVal
  | pinf : FVal
  deriving DecidableEq

namespace FVal

/-- IEEE `<` on denotations: false as soon as one side is NaN. -/
def lt : FVal → FVal → Bool
  | fin p, fin q => decide (p < q)
  | ninf, fin _ => true
  | ninf, pinf => true
  | fin _, pinf => true
  | _, _ => false

/-- IEEE `==` on denotations: numeric equality, false as soon as one side is NaN. -/
def eq : FVal → FVal → Bool
  | fin p, fin q => decide (p = q)
  | ninf, ninf => true
  | pinf, pinf => true
  | _, _ => false

/-- IEEE `<=` on denotations. -/
def le (a b : FVal) : Bool := lt a b || eq a b

/-- IEEE addition on denotations, exact on finite operands. -/
def add : FVal → FVal → FVal
  | nan, _ => nan
  | _, nan => nan
  | pinf, ninf => nan
  | ninf, pinf => nan
  | pinf, _ => pinf
  | _, pinf => pinf
  | ninf, _ => ninf
  | _, ninf => ninf
  | fin p, fin q => fin (p + q)

/-- The infinity with the sign of `q` times plus infinity; NaN when `q = 0`. -/
def infTimes (q : ℚ) : FVal :=
  if q = 0 then nan else if 0 < q then pinf else ninf

/-- IEEE multiplication on denotations, exact on finite operands. -/
def mul : FVal → FVal → FVal
  | nan, _ => nan
  | _, nan => nan
  | pinf, pinf => pinf
  | ninf, ninf => pinf
  | pinf, ninf => ninf
  | ninf, pinf => ninf
  | pinf, fin q => infTimes q
  | fin q, pinf => infTimes q
  | ninf, fin q => infTimes (-q)
  | fin q, ninf => infTimes (-q)
  | fin p, fin q => fin (p * q)

/-- Conversion of a float to `int`: truncation toward zero (the conversion of a
NaN or an infinity is undefined in C; the model returns 0). -/
def toInt : FVal → Int
  | fin q => if 0 ≤ q then ⌊q⌋ else ⌈q⌉
  | _ => 0

end FVal

/-- The operations on C `float` that the simulation core uses, with the laws of
IEEE-754 arithmetic that the proofs rely on. -/
class CFloat (F : Type) where
  /-- The value a float denotes. -/
  val : F → FVal
  /-- Conversion `(float)n` of an `int`: `n` rounded to a float.  The literals `0.0f`,
  `1.0f`, `3.0f`, `9.0f`, `11.0f`, `12.0f` are the floats `ofInt 0`, `ofInt 1`, ... -/
  ofInt : Int → F
  /-- Conversion `(int)x` of a float. -/
  toInt : F → Int
  /-- Float addition. -/
  add : F → F → F
  /-- Float multiplication. -/
  mul : F → F → F
  /-- Integers of magnitude at most `2^24` convert exactly. -/
  ofInt_exact : ∀ n : Int, -16777216 ≤ n → n ≤ 16777216 → val (ofInt n) = FVal.fin n
  /-- Conversion from `int` is monotone (and never NaN). -/
  ofInt_mono : ∀ n m : Int, n ≤ m → FVal.le (val (ofInt n)) (val (ofInt m)) = true
  /-- Conversion to `int` truncates toward zero when the value fits in an `int`. -/
  toInt_trunc : ∀ (x : F) (q : ℚ), val x = FVal.fin q → -2147483649 < q → q < 2147483648 →
    toInt x = if 0 ≤ q then ⌊q⌋ else ⌈q⌉
  /-- A sum of finite floats whose exact value is representable is that value. -/
  add_exact : ∀ (a b c : F) (p q : ℚ), val a = FVal.fin p → val b = FVal.fin q →
    val c = FVal.fin (p + q) → val (add a b) = FVal.fin (p + q)
  /-- A product of finite floats whose exact value is representable is that value. -/
  mul_exact : ∀ (a b c : F) (p q : ℚ), val a = FVal.fin p → val b = FVal.fin q →
    val c = FVal.fin (p * q) → val (mul a b) = FVal.fin (p * q)

/-- Exact arithmetic on denotations is a model of the float laws. -/
instance : CFloat FVal where
  val := id
  ofInt := fun n => FVal.fin n
  toInt := FVal.toInt
  add := FVal.add
  mul := FVal.mul
  ofInt_exact := fun _ _ _ => rfl
  ofInt_mono := by
    intro n m h
    have h1 : (n : ℚ) ≤ (m : ℚ) := by exact_mod_cast h
    rcases lt_or_eq_of_le h1 with h2 | h2 <;> simp [FVal.le, FVal.lt, FVal.eq, h2]
  toInt_trunc := by
    intro x q hx _ _
    simp only [id] at hx
    subst hx
    rfl
  add_exact := by
    intro a b c p q ha hb _
    simp only [id] at ha hb
    subst ha hb
    rfl
  mul_exact := by
    intro a b c p q ha hb _
    simp only [id] at ha hb
    subst ha hb
    rfl

section Source

variable {F : Type} [CFloat F]

/-- C `a < b` on floats. -/
def flt (a b : F) : Bool := FVal.lt (CFloat.val a) (CFloat.val b)

/-- C `a == b` on floats. -/
def feq (a b : F) : Bool := FVal.eq (CFloat.val a) (CFloat.val b)

/-- C `a <= b` on floats. -/
def fle (a b : F) : Bool := FVal.le (CFloat.val a) (CFloat.val b)

/-- `#define COLUMNS 300` -/
abbrev COLUMNS : Int := 300

/-- `#define ROWS 300` -/
abbrev ROWS : Int := 300

/-- `settings_t`: a 3x3 kernel, read as `filter a b` for `filter[a][b]` with `a` and
`b` in `0..2`, and an activation function. -/
structure settings_t (F : Type) where
  filter : Int → Int → F
  activation : F → F

/-- `float board[COLUMNS * ROWS]`, read at an `int` index. -/
abbrev Board (F : Type) : Type := Int → F

/-- The assignment `board[i] = v`. -/
def write {F : Type} (board : Board F) (i : Int) (v : F) : Board F :=
  fun k => if k = i then v else board k

/-- Runs `body k` for `k = lo, lo + 1, ...`, `n` times. -/
def for_steps {σ : Type} : Nat → Int → (Int → σ → σ) → σ → σ
  | 0, _, _, s => s
  | n + 1, lo, body, s => for_steps n (lo + 1) body (body lo s)

/-- The loop `for (int k = lo; k < hi; k++) body`. -/
def for_loop {σ : Type} (lo hi : Int) (body : Int → σ → σ) (s : σ) : σ :=
  for_steps (hi - lo).toNat lo body s

/-- `activation_game_of_life` -/
def activation_game_of_life (x : F) : F :=
  if feq x (CFloat.ofInt 3) || feq x (CFloat.ofInt 11) || feq x (CFloat.ofInt 12) then
    CFloat.ofInt 1
  else
    CFloat.ofInt 0

/-- Entry `[a][b]` of a `float[3][3]` given by its initialiser, row by row. -/
def array_3x3 (rows : List (List F)) (a b : Int) : F :=
  (rows.getD a.toNat []).getD b.toNat (CFloat.ofInt 0)

/-- The kernel of `settings[2]`. -/
def filter_2 : Int → Int → F :=
  array_3x3
    [[CFloat.ofInt 1, CFloat.ofInt 1, CFloat.ofInt 1],
     [CFloat.ofInt 1, CFloat.ofInt 9, CFloat.ofInt 1],
     [CFloat.ofInt 1, CFloat.ofInt 1, CFloat.ofInt 1]]

/-- `settings[2]`, the life-like preset. -/
def settings_2 : settings_t F :=
  { filter := filter_2, activation := activation_game_of_life }

/-- `get_index` -/
def get_index (x y : Int) : Int := y * COLUMNS + x

/-- `clamp` -/
def clamp (x min max : F) : F :=
  if flt x min then min
  else if flt max x then max
  else x

/-- `get_neighbors_sum`, reading the board passed as first argument; the loops
`for (int i = -1; i <= 1; i++)` run `i` over `-1, 0, 1`. -/
def get_neighbors_sum (board : Board F) (x y : Int) (settings : settings_t F) : F :=
  for_loop (-1) 2 (fun i neighbors_sum =>
    let ny := Int.tmod (y + i + ROWS) ROWS
    for_loop (-1) 2 (fun j neighbors_sum =>
      let nx := Int.tmod (x + j + COLUMNS) COLUMNS
      CFloat.add neighbors_sum
        (CFloat.mul (board (get_index nx ny)) (settings.filter (j + 1) (i + 1))))
      neighbors_sum)
    (CFloat.ofInt 0)

/-- The first pair of loops of `simulation`: the generation buffer `new_board`
once every neighbor sum has been stored, starting from the contents `new_board0`. -/
def simulation_buffer (settings : settings_t F) (new_board0 board : Board F) : Board F :=
  for_loop 0 ROWS (fun y new_board =>
    for_loop 0 COLUMNS (fun x new_board =>
      write new_board (get_index x y) (get_neighbors_sum board x y settings))
      new_board)
    new_board0

/-- `simulation`: the board after the call. -/
def simulation (settings : settings_t F) (new_board0 board : Board F) : Board F :=
  let new_board := simulation_buffer settings new_board0 board
  for_loop 0 ROWS (fun y board =>
    for_loop 0 COLUMNS (fun x board =>
      write board (get_index x y)
        (clamp (settings.activation (new_board (get_index x y)))
          (CFloat.ofInt 0) (CFloat.ofInt 1)))
      board)
    board

/-- `put_pixel`: its first parameter is a `float`; `get_index(x, y)` converts it
back to `int`. -/
def put_pixel (x : F) (y : Int) (board : Board F) : Board F :=
  if flt x (CFloat.ofInt 0) || fle (CFloat.ofInt COLUMNS) x then board
  else if y < 0 || y ≥ ROWS then board
  else write board (get_index (CFloat.toInt x) y) (CFloat.ofInt 1)

/-- `erase_pixel` -/
def erase_pixel (x y : Int) (board : Board F) : Board F :=
  if x < 0 || x ≥ COLUMNS then board
  else if y < 0 || y ≥ ROWS then board
  else write board (get_index x y) (CFloat.ofInt 0)

end Source

section Specification

variable {F : Type} [CFloat F]

/-- The closed range test `0.0f <= v && v <= 1.0f`. -/
def in01 (v : F) : Bool := fle (CFloat.ofInt 0) v && fle v (CFloat.ofInt 1)

/-- Every cell of the grid lies in `[0.0, 1.0]`. -/
def range_ok (board : Board F) : Prop :=
  ∀ x y : Int, 0 ≤ x → x < COLUMNS → 0 ≤ y → y < ROWS → in01 (board (get_index x y)) = true

/-- The wrap of the specification: `wrap(v, N) = ((v mod N) + N) mod N`, with the
remainder of C. -/
def wrap (v N : Int) : Int := Int.tmod (Int.tmod v N + N) N

/-- The relative offsets `(dx, dy)` of the 3x3 neighbourhood, row by row. -/
def offsets : List (Int × Int) :=
  [(-1, -1), (0, -1), (1, -1), (-1, 0), (0, 0), (1, 0), (-1, 1), (0, 1), (1, 1)]

/-- The eight offsets of the proper neighbours. -/
def neighbour_offsets : List (Int × Int) :=
  [(-1, -1), (0, -1), (1, -1), (-1, 0), (1, 0), (-1, 1), (0, 1), (1, 1)]

/-- The cell at offset `(dx, dy)` from `(x, y)` on the torus: `grid.read(wrap(x+dx), wrap(y+dy))`. -/
def wrapped_cell (board : Board F) (x y dx dy : Int) : F :=
  board (get_index (wrap (x + dx) COLUMNS) (wrap (y + dy) ROWS))

/-- One term of the neighbor sum: `grid.read(wrap(x+dx), wrap(y+dy)) * rule.weight[dx][dy]`,
the weight of offset `(dx, dy)` being `filter[dx + 1][dy + 1]`. -/
def weighted_cell (board : Board F) (settings : settings_t F) (x y dx dy : Int) : F :=
  CFloat.mul (wrapped_cell board x y dx dy) (settings.filter (dx + 1) (dy + 1))

/-- The neighbor sum `G(x, y)` of the specification: the nine terms added to `0.0`
one after the other. -/
def neighbor_sum_spec (board : Board F) (settings : settings_t F) (x y : Int) : F :=
  offsets.foldl (fun acc d => CFloat.add acc (weighted_cell board settings x y d.1 d.2))
    (CFloat.ofInt 0)

/-- A cell is live when it compares equal to `1.0`. -/
def is_live (v : F) : Bool := feq v (CFloat.ofInt 1)

/-- Number of the eight toroidally wrapped neighbours of `(x, y)` equal to `1.0`. -/
def live_neighbours (board : Board F) (x y : Int) : Nat :=
  (neighbour_offsets.map
    (fun d => if is_live (wrapped_cell board x y d.1 d.2) then 1 else 0)).sum

/-- Conway's rule B3/S23: born with 3 live neighbours, survives with 2 or 3. -/
def conway_next (alive : Bool) (n : Nat) : Bool :=
  (!alive && n == 3) || (alive && (n == 2 || n == 3))

/-- Every cell of the grid is `0.0` or `1.0`. -/
def is_binary (board : Board F) : Prop :=
  ∀ x y : Int, 0 ≤ x → x < COLUMNS → 0 ≤ y → y < ROWS →
    CFloat.val (board (get_index x y)) = FVal.fin 0 ∨
    CFloat.val (board (get_index x y)) = FVal.fin 1

/-- Every cell of the grid is `1.0`. -/
def all_alive (board : Board F) : Prop :=
  ∀ x y : Int, 0 ≤ x → x < COLUMNS → 0 ≤ y → y < ROWS →
    CFloat.val (board (get_index x y)) = FVal.fin 1

/-- The grid is `0.0` everywhere except at `(cx, cy)`, which holds `1.0`. -/
def is_lone_cell (board : Board F) (cx cy : Int) : Prop :=
  ∀ x y : Int, 0 ≤ x → x < COLUMNS → 0 ≤ y → y < ROWS →
    CFloat.val (board (get_index x y)) = if x = cx ∧ y = cy then FVal.fin 1 else FVal.fin 0

/-- The board holding `1.0` at `(cx, cy)` and `0.0` elsewhere. -/
def lone_board (cx cy : Int) : Board F :=
  fun k => if k = get_index cx cy then CFloat.ofInt 1 else CFloat.ofInt 0

/-- The board holding `v` in every cell. -/
def const_board (v : F) : Board F := fun _ => v

/-- Every entry of the 3x3 kernel is a finite float. -/
def finite_kernel (settings : settings_t F) : Prop :=
  ∀ a b : Int, 0 ≤ a → a ≤ 2 → 0 ≤ b → b ≤ 2 →
    ∃ q : ℚ, CFloat.val (settings.filter a b) = FVal.fin q

/-- The board whose live cells are the four edge neighbours of (1, 1). -/
def cross_board : Board FVal := fun k =>
  if k = get_index 1 0 ∨ k = get_index 0 1 ∨ k = get_index 2 1 ∨ k = get_index 1 2 then
    CFloat.ofInt 1
  else CFloat.ofInt 0

/-- A kernel with nine different finite entries, `filter[a][b] = 3a + b + 1`. -/
def sample_kernel (a b : Int) : FVal := FVal.fin (3 * a + b + 1)

/-- A kernel whose entry `filter[0][0]` is plus infinity, the others being `1.0`. -/
def inf_kernel (a b : Int) : FVal := if a = 0 ∧ b = 0 then FVal.pinf else FVal.fin 1

end Specification

/-! ## The waves and worms presets -/

namespace FVal

/-- IEEE absolute value on denotations. -/
def abs : FVal → FVal
  | nan => nan
  | ninf => pinf
  | pinf => pinf
  | fin q => fin |q|

/-- IEEE division on denotations, exact on finite operands; the only zero of the
denotations is positive. -/
def div : FVal → FVal → FVal
  | nan, _ => nan
  | _, nan => nan
  | pinf, pinf => nan
  | pinf, ninf => nan
  | ninf, pinf => nan
  | ninf, ninf => nan
  | pinf, fin q => if 0 ≤ q then pinf else ninf
  | ninf, fin q => if 0 ≤ q then ninf else pinf
  | fin _, pinf => fin 0
  | fin _, ninf => fin 0
  | fin p, fin q =>
    if q = 0 then (if p = 0 then nan else if 0 < p then pinf else ninf) else fin (p / q)

/-- The smaller of two denotations (`b` when `b < a`, else `a`). -/
def min (a b : FVal) : FVal := if lt b a then b else a

/-- The larger of two denotations (`b` when `a < b`, else `a`). -/
def max (a b : FVal) : FVal := if lt a b then b else a

end FVal

/-- The further operations on C `float` that `activation_waves`, `activation_worms`
and the kernels of `settings[0]` and `settings[1]` use, with the laws relied on. -/
class CFloatMath (F : Type) extends CFloat F where
  /-- A decimal floating constant such as `0.565f`: the rational rounded to a float.
  A constant written with a minus sign, `-0.716f`, is the constant of the negated
  rational, rounding being symmetric. -/
  lit : ℚ → F
  /-- Float division. -/
  div : F → F → F
  /-- `fabsf` of `math.h`. -/
  fabsf : F → F
  /-- A decimal constant of magnitude at most `2^24` is a finite float. -/
  lit_finite : ∀ q : ℚ, -16777216 ≤ q → q ≤ 16777216 → ∃ r : ℚ, val (lit q) = FVal.fin r
  /-- A quotient of finite floats whose exact value is representable is that value. -/
  div_exact : ∀ (a b c : F) (p q : ℚ), val a = FVal.fin p → val b = FVal.fin q → q ≠ 0 →
    val c = FVal.fin (p / q) → val (div a b) = FVal.fin (p / q)
  /-- `fabsf` is exact. -/
  fabsf_val : ∀ x : F, val (fabsf x) = FVal.abs (val x)

/-- Exact arithmetic on denotations is a model of these laws as well. -/
instance : CFloatMath FVal where
  toCFloat := inferInstance
  lit := FVal.fin
  div := FVal.div
  fabsf := FVal.abs
  lit_finite := fun q _ _ => ⟨q, rfl⟩
  div_exact := by
    intro a b c p q ha hb hq _
    have ha1 : a = FVal.fin p := ha
    have hb1 : b = FVal.fin q := hb
    subst ha1 hb1
    show FVal.div (FVal.fin p) (FVal.fin q) = FVal.fin (p / q)
    simp only [FVal.div, if_neg hq]
  fabsf_val := fun _ => rfl

section Presets

variable {F : Type} [CFloatMath F]

/-- The facts about `powf` of `math.h` that the proofs rely on, both from Annex F of
the C standard: `pow(x, ±0)` is 1 for every `x`, and `pow(±0, y)` is `+0` for `y > 0`
not an odd integer, here `y = 2`. -/
structure powf_laws (powf : F → F → F) : Prop where
  exponent_zero : ∀ x y : F, CFloat.val y = FVal.fin 0 → CFloat.val (powf x y) = FVal.fin 1
  zero_squared : ∀ x y : F, CFloat.val x = FVal.fin 0 → CFloat.val y = FVal.fin 2 →
    CFloat.val (powf x y) = FVal.fin 0

/-- `activation_waves` -/
def activation_waves (x : F) : F :=
  CFloatMath.fabsf (CFloat.mul (CFloatMath.lit 1.2) x)

/-- `activation_worms`; `powf` of `math.h` is a parameter, and `-1.0f` is the float
`(float)(-1)`. -/
def activation_worms (powf : F → F → F) (x : F) : F :=
  CFloat.add
    (CFloatMath.div (CFloat.ofInt (-1))
      (powf (CFloat.ofInt 2) (CFloat.mul (CFloatMath.lit 0.6) (powf x (CFloat.ofInt 2)))))
    (CFloat.ofInt 1)

/-- The kernel of `settings[0]`. -/
def filter_0 : Int → Int → F :=
  array_3x3
    [[CFloatMath.lit 0.565, CFloatMath.lit (-0.716), CFloatMath.lit 0.565],
     [CFloatMath.lit (-0.716), CFloatMath.lit 0.627, CFloatMath.lit (-0.716)],
     [CFloatMath.lit 0.565, CFloatMath.lit (-0.716), CFloatMath.lit 0.565]]

/-- The kernel of `settings[1]`. -/
def filter_1 : Int → Int → F :=
  array_3x3
    [[CFloatMath.lit 0.68, CFloatMath.lit (-0.9), CFloatMath.lit 0.68],
     [CFloatMath.lit (-0.9), CFloatMath.lit (-0.66), CFloatMath.lit (-0.9)],
     [CFloatMath.lit 0.68, CFloatMath.lit (-0.9), CFloatMath.lit 0.68]]

/-- `settings[0]`, the waves preset. -/
def settings_0 : settings_t F :=
  { filter := filter_0, activation := activation_waves }

/-- `settings[1]`, the worms preset. -/
def settings_1 (powf : F → F → F) : settings_t F :=
  { filter := filter_1, activation := activation_worms powf }

/-- The array `settings[]`. -/
def settings (powf : F → F → F) : List (settings_t F) :=
  [settings_0, settings_1 powf, settings_2]

end Presets

section Instrumented

variable {F : Type} [CFloat F]

/-- `get_neighbors_sum` together with the list of the board indices it reads, in
the order of the reads. -/
def get_neighbors_sum_traced (board : Board F) (x y : Int) (settings : settings_t F) :
    F × List Int :=
  for_loop (-1) 2 (fun i acc =>
    let ny := Int.tmod (y + i + ROWS) ROWS
    for_loop (-1) 2 (fun j acc =>
      let nx := Int.tmod (x + j + COLUMNS) COLUMNS
      (CFloat.add acc.1
          (CFloat.mul (board (get_index nx ny)) (settings.filter (j + 1) (i + 1))),
        acc.2 ++ [get_index nx ny]))
      acc)
    (CFloat.ofInt 0, [])

/-- The variant of `get_neighbors_sum` that reads the kernel with the row offset
first, `filter[i + 1][j + 1]`. -/
def get_neighbors_sum_transposed (board : Board F) (x y : Int) (settings : settings_t F) : F :=
  for_loop (-1) 2 (fun i neighbors_sum =>
    let ny := Int.tmod (y + i + ROWS) ROWS
    for_loop (-1) 2 (fun j neighbors_sum =>
      let nx := Int.tmod (x + j + COLUMNS) COLUMNS
      CFloat.add neighbors_sum
        (CFloat.mul (board (get_index nx ny)) (settings.filter (i + 1) (j + 1))))
      neighbors_sum)
    (CFloat.ofInt 0)

/-- The board translated by `(a, b)` on the torus: cell `(x, y)` of the grid holds what
cell `(wrap(x - a), wrap(y - b))` held; indices outside the grid are left alone. -/
def shift_board {F : Type} (a b : Int) (board : Board F) : Board F :=
  fun k =>
    if 0 ≤ k ∧ k < COLUMNS * ROWS then
      board (get_index (wrap (k % COLUMNS - a) COLUMNS) (wrap (k / COLUMNS - b) ROWS))
    else board k

/-- Every cell of the grid is `0.0`. -/
def all_zero (board : Board F) : Prop :=
  ∀ x y : Int, 0 ≤ x → x < COLUMNS → 0 ≤ y → y < ROWS →
    CFloat.val (board (get_index x y)) = FVal.fin 0

/-- The closed range test `lo <= v && v <= hi`. -/
def in_range (v lo hi : F) : Bool := fle lo v && fle v hi

/-- A `powf` on denotations that agrees with Annex F where the exponent is zero and
squares exactly; it is NaN elsewhere. -/
def sample_powf (x y : FVal) : FVal :=
  if y = FVal.fin 0 then FVal.fin 1
  else if y = FVal.fin 2 then FVal.mul x x
  else FVal.nan

/-- A board with a different value in every cell of the grid. -/
def ramp_board : Board FVal := fun k => FVal.fin k

end Instrumented

/-! ## The worms activation: infinities, rounding, and the real reading -/

/-- The laws of IEEE-754 arithmetic about infinities and about rounding between two
floats, used for `activation_worms` away from zero. -/
class CFloatIEEE (F : Type) extends CFloatMath F where
  /-- A positive finite float times plus infinity is plus infinity. -/
  mul_pos_inf : ∀ (a b : F) (p : ℚ), val a = FVal.fin p → 0 < p → val b = FVal.pinf →
    val (mul a b) = FVal.pinf
  /-- The product of two finite floats that are not negative is not negative: it is a
  finite float that is not negative, or plus infinity after an overflow. -/
  mul_nonneg_cases : ∀ (a b : F) (p q : ℚ), val a = FVal.fin p → 0 ≤ p →
    val b = FVal.fin q → 0 ≤ q →
    val (mul a b) = FVal.pinf ∨ ∃ r : ℚ, val (mul a b) = FVal.fin r ∧ 0 ≤ r
  /-- A finite float divided by plus infinity is a zero. -/
  div_by_inf : ∀ (a b : F) (p : ℚ), val a = FVal.fin p → val b = FVal.pinf →
    val (div a b) = FVal.fin 0
  /-- A positive decimal constant between `2^-24` and `2^24` is a positive finite float. -/
  lit_pos : ∀ q : ℚ, 1 / 16777216 ≤ q → q ≤ 16777216 →
    ∃ r : ℚ, val (lit q) = FVal.fin r ∧ 0 < r
  /-- Rounding is monotone: a quotient whose exact value lies between two floats is a
  finite float between them. -/
  div_between : ∀ (a b lo hi : F) (p q l h : ℚ), val a = FVal.fin p → val b = FVal.fin q →
    q ≠ 0 → val lo = FVal.fin l → val hi = FVal.fin h → l ≤ p / q → p / q ≤ h →
    ∃ r : ℚ, val (div a b) = FVal.fin r ∧ l ≤ r ∧ r ≤ h
  /-- Rounding is monotone: a sum whose exact value lies between two floats is a finite
  float between them. -/
  add_between : ∀ (a b lo hi : F) (p q l h : ℚ), val a = FVal.fin p → val b = FVal.fin q →
    val lo = FVal.fin l → val hi = FVal.fin h → l ≤ p + q → p + q ≤ h →
    ∃ r : ℚ, val (add a b) = FVal.fin r ∧ l ≤ r ∧ r ≤ h

/-- Exact arithmetic on denotations is a model of these laws as well. -/
instance : CFloatIEEE FVal where
  toCFloatMath := inferInstance
  mul_pos_inf := by
    intro a b p ha hp hb
    have ha1 : a = FVal.fin p := ha
    have hb1 : b = FVal.pinf := hb
    subst ha1 hb1
    show FVal.mul (FVal.fin p) FVal.pinf = FVal.pinf
    simp only [FVal.mul, FVal.infTimes, if_neg (ne_of_gt hp), if_pos hp]
  mul_nonneg_cases := by
    intro a b p q ha hp hb hq
    have ha1 : a = FVal.fin p := ha
    have hb1 : b = FVal.fin q := hb
    subst ha1 hb1
    exact Or.inr ⟨p * q, rfl, mul_nonneg hp hq⟩
  div_by_inf := by
    intro a b p ha hb
    have ha1 : a = FVal.fin p := ha
    have hb1 : b = FVal.pinf := hb
    subst ha1 hb1
    rfl
  lit_pos := fun q h _ => ⟨q, rfl, lt_of_lt_of_le (by norm_num) h⟩
  div_between := by
    intro a b lo hi p q l h ha hb hq _ _ h1 h2
    have ha1 : a = FVal.fin p := ha
    have hb1 : b = FVal.fin q := hb
    subst ha1 hb1
    refine ⟨p / q, ?_, h1, h2⟩
    show FVal.div (FVal.fin p) (FVal.fin q) = FVal.fin (p / q)
    simp only [FVal.div, if_neg hq]
  add_between := by
    intro a b lo hi p q l h ha hb _ _ h1 h2
    have ha1 : a = FVal.fin p := ha
    have hb1 : b = FVal.fin q := hb
    subst ha1 hb1
    exact ⟨p + q, rfl, h1, h2⟩

section Worms

variable {F : Type} [CFloatMath F]

/-- Two more facts about `powf` of `math.h` fixed by the C standard: a square whose
exact value is `2^128` or more overflows, and the result of an overflow is `HUGE_VALF`,
plus infinity (7.12.1 and Annex F); `pow(2, +inf)` is plus infinity (Annex F). -/
structure powf_overflow_laws (powf : F → F → F) : Prop where
  square_overflow : ∀ (x y : F) (q : ℚ), CFloat.val x = FVal.fin q →
    CFloat.val y = FVal.fin 2 → 340282366920938463463374607431768211456 ≤ q * q →
    CFloat.val (powf x y) = FVal.pinf
  two_to_inf : ∀ x y : F, CFloat.val x = FVal.fin 2 → CFloat.val y = FVal.pinf →
    CFloat.val (powf x y) = FVal.pinf

/-- Two facts about the sign and size of what `powf` returns, true of every `powf` that
returns a rounding of the exact power (the C standard leaves the accuracy of `powf` to
the implementation): the square of a real number is a float that is not negative, or
plus infinity; and 2 to a power that is not negative, or to plus infinity, is a float
that is at least `1.0`, or plus infinity. -/
structure powf_bound_laws (powf : F → F → F) : Prop where
  square_nonneg : ∀ (x y : F) (q : ℚ), CFloat.val x = FVal.fin q →
    CFloat.val y = FVal.fin 2 →
    CFloat.val (powf x y) = FVal.pinf ∨ ∃ r : ℚ, CFloat.val (powf x y) = FVal.fin r ∧ 0 ≤ r
  two_pow_ge_one : ∀ x y : F, CFloat.val x = FVal.fin 2 →
    (CFloat.val y = FVal.pinf ∨ ∃ q : ℚ, CFloat.val y = FVal.fin q ∧ 0 ≤ q) →
    CFloat.val (powf x y) = FVal.pinf ∨ ∃ r : ℚ, CFloat.val (powf x y) = FVal.fin r ∧ 1 ≤ r

/-- The float `2^(0.6 G^2)` that `activation_worms` computes before the division. -/
def worms_power (powf : F → F → F) (x : F) : F :=
  powf (CFloat.ofInt 2) (CFloat.mul (CFloatMath.lit 0.6) (powf x (CFloat.ofInt 2)))

end Worms

/-- The expression of `activation_worms`, `-1 / pow(2, 0.6 * pow(x, 2)) + 1`, over a
field `R` with a power function `pow`.  With the reals and the real power it is the
value that the code approximates in float arithmetic. -/
def activation_worms_expr {R : Type} [Field R] (pow : R → R → R) (x : R) : R :=
  -1 / pow 2 (0.6 * pow x 2) + 1

/-- A `powf` on denotations with overflow: `pow(x, ±0) = 1`; `pow(x, 2)` for a finite
`x` is `x^2`, or plus infinity when `x^2` is `2^128` or more, beyond the largest `float`;
`pow(2, +inf)` is plus infinity; `pow(2, y)` for another finite `y` that is not negative
is 2 to the integer `y` rounded up, or plus infinity from the exponent 128 on.  It is NaN
elsewhere. -/
def overflow_powf (x y : FVal) : FVal :=
  if y = FVal.fin 0 then FVal.fin 1
  else if y = FVal.fin 2 then
    match x with
    | FVal.fin q =>
      if 340282366920938463463374607431768211456 ≤ q * q then FVal.pinf else FVal.fin (q * q)
    | FVal.nan => FVal.nan
    | FVal.ninf => FVal.pinf
    | FVal.pinf => FVal.pinf
  else if x = FVal.fin 2 then
    match y with
    | FVal.pinf => FVal.pinf
    | FVal.fin q =>
      if 0 ≤ q then (if 128 ≤ Nat.ceil q then FVal.pinf else FVal.fin (2 ^ Nat.ceil q))
      else FVal.nan
    | FVal.nan => FVal.nan
    | FVal.ninf => FVal.nan
  else FVal.nan

/-- A `powf` on denotations that is `pow` on the finite values, without rounding. -/
def exact_powf (pow : ℚ → ℚ → ℚ) (x y : FVal) : FVal :=
  match x, y with
  | FVal.fin a, FVal.fin b => FVal.fin (pow a b)
  | _, _ => FVal.nan

/-- The float `1e20f`. -/
def float_1e20 : FVal := FVal.fin 100000002004087734272

section Loops

variable {F : Type}

theorem write_same (b : Board F) (i : Int) (v : F) : write b i v i = v := by
  simp [write]

theorem write_other (b : Board F) (i k : Int) (v : F) (h : k ≠ i) : write b i v k = b k := by
  simp [write, h]

/-- One row of writes: the inner loop over `x`. -/
theorem fill_row (f : Int → F) (y : Int) (n : Nat) :
    ∀ (lo : Int) (b : Board F) (k : Int),
      for_steps n lo (fun x nb => write nb (get_index x y) (f x)) b k
        = if lo ≤ k - y * 300 ∧ k - y * 300 < lo + n then f (k - y * 300) else b k := by
  induction n with
  | zero =>
    intro lo b k
    have h : ¬ (lo ≤ k - y * 300 ∧ k - y * 300 < lo + ((0 : Nat) : Int)) := by omega
    simp only [for_steps, if_neg h]
  | succ n ih =>
    intro lo b k
    simp only [for_steps]
    rw [ih]
    by_cases h1 : k = get_index lo y
    · have h2 : k - y * 300 = lo := by simp only [get_index, COLUMNS] at h1; omega
      have h3 : ¬ (lo + 1 ≤ k - y * 300 ∧ k - y * 300 < lo + 1 + (n : Int)) := by omega
      have h4 : lo ≤ k - y * 300 ∧ k - y * 300 < lo + ((n + 1 : Nat) : Int) := by omega
      rw [if_neg h3, if_pos h4, h2, h1, write_same]
    · have h2 : k - y * 300 ≠ lo := by simp only [get_index, COLUMNS] at h1; omega
      rw [write_other _ _ _ _ h1]
      by_cases h3 : lo + 1 ≤ k - y * 300 ∧ k - y * 300 < lo + 1 + (n : Int)
      · have h4 : lo ≤ k - y * 300 ∧ k - y * 300 < lo + ((n + 1 : Nat) : Int) := by omega
        rw [if_pos h3, if_pos h4]
      · have h4 : ¬ (lo ≤ k - y * 300 ∧ k - y * 300 < lo + ((n + 1 : Nat) : Int)) := by omega
        rw [if_neg h3, if_neg h4]

/-- All rows of writes: the two nested loops over `y` and `x`. -/
theorem fill_rows (f : Int → Int → F) (m : Nat) :
    ∀ (lo : Int) (b : Board F) (k : Int),
      for_steps m lo (fun y nb =>
        for_loop 0 COLUMNS (fun x nb => write nb (get_index x y) (f x y)) nb) b k
        = if lo ≤ k / 300 ∧ k / 300 < lo + m then f (k % 300) (k / 300) else b k := by
  induction m with
  | zero =>
    intro lo b k
    have h : ¬ (lo ≤ k / 300 ∧ k / 300 < lo + ((0 : Nat) : Int)) := by omega
    simp only [for_steps, if_neg h]
  | succ m ih =>
    intro lo b k
    simp only [for_steps]
    rw [ih]
    have hloop : ∀ (nb : Board F),
        for_loop 0 COLUMNS (fun x nb => write nb (get_index x lo) (f x lo)) nb k
          = if 0 ≤ k - lo * 300 ∧ k - lo * 300 < 0 + ((300 : Nat) : Int)
              then f (k - lo * 300) lo else nb k := by
      intro nb
      exact fill_row (fun x => f x lo) lo 300 0 nb k
    rw [hloop]
    by_cases h1 : k / 300 = lo
    · have h2 : 0 ≤ k - lo * 300 ∧ k - lo * 300 < 0 + ((300 : Nat) : Int) := by omega
      have h3 : ¬ (lo + 1 ≤ k / 300 ∧ k / 300 < lo + 1 + (m : Int)) := by omega
      have h4 : lo ≤ k / 300 ∧ k / 300 < lo + ((m + 1 : Nat) : Int) := by omega
      have h5 : k - lo * 300 = k % 300 := by omega
      rw [if_neg h3, if_pos h2, if_pos h4, h5, h1]
    · have h2 : ¬ (0 ≤ k - lo * 300 ∧ k - lo * 300 < 0 + ((300 : Nat) : Int)) := by omega
      rw [if_neg h2]
      by_cases h3 : lo + 1 ≤ k / 300 ∧ k / 300 < lo + 1 + (m : Int)
      · have h4 : lo ≤ k / 300 ∧ k / 300 < lo + ((m + 1 : Nat) : Int) := by omega
        rw [if_pos h3, if_pos h4]
      · have h4 : ¬ (lo ≤ k / 300 ∧ k / 300 < lo + ((m + 1 : Nat) : Int)) := by omega
        rw [if_neg h3, if_neg h4]

/-- The nested loops store `f x y` at `get_index x y` for every cell of the grid. -/
theorem fill_cell (f : Int → Int → F) (b : Board F) (x y : Int)
    (hx0 : 0 ≤ x) (hx1 : x < COLUMNS) (hy0 : 0 ≤ y) (hy1 : y < ROWS) :
    for_loop 0 ROWS (fun y nb =>
      for_loop 0 COLUMNS (fun x nb => write nb (get_index x y) (f x y)) nb) b (get_index x y)
      = f x y := by
  have h := fill_rows f 300 0 b (get_index x y)
  simp only [COLUMNS, ROWS] at hx1 hy1
  have h1 : get_index x y / 300 = y := by simp only [get_index, COLUMNS]; omega
  have h2 : get_index x y % 300 = x := by simp only [get_index, COLUMNS]; omega
  have h3 : 0 ≤ get_index x y / 300 ∧ get_index x y / 300 < 0 + ((300 : Nat) : Int) := by
    rw [h1]; omega
  rw [if_pos h3, h1, h2] at h
  exact h

theorem simulation_buffer_cell [CFloat F] (settings : settings_t F) (new_board0 board : Board F)
    (x y : Int) (hx0 : 0 ≤ x) (hx1 : x < COLUMNS) (hy0 : 0 ≤ y) (hy1 : y < ROWS) :
    simulation_buffer settings new_board0 board (get_index x y)
      = get_neighbors_sum board x y settings :=
  fill_cell (fun x y => get_neighbors_sum board x y settings) new_board0 x y hx0 hx1 hy0 hy1

theorem simulation_cell [CFloat F] (settings : settings_t F) (new_board0 board : Board F)
    (x y : Int) (hx0 : 0 ≤ x) (hx1 : x < COLUMNS) (hy0 : 0 ≤ y) (hy1 : y < ROWS) :
    simulation settings new_board0 board (get_index x y)
      = clamp (settings.activation (get_neighbors_sum board x y settings))
          (CFloat.ofInt 0) (CFloat.ofInt 1) := by
  have h := fill_cell (fun x y =>
    clamp (settings.activation (simulation_buffer settings new_board0 board (get_index x y)))
      (CFloat.ofInt 0) (CFloat.ofInt 1)) board x y hx0 hx1 hy0 hy1
  dsimp only at h
  rw [simulation_buffer_cell settings new_board0 board x y hx0 hx1 hy0 hy1] at h
  exact h

end Loops

section Wrap

variable {F : Type}

/-- The wrap of the specification is the Euclidean remainder. -/
theorem wrap_eq_emod (v N : Int) (hN : 0 < N) : wrap v N = v % N := by
  unfold wrap
  by_cases hv : 0 ≤ v
  · rw [Int.tmod_eq_emod hv (le_of_lt hN)]
    have h1 := Int.emod_nonneg v (ne_of_gt hN)
    rw [Int.tmod_eq_emod (by omega) (le_of_lt hN), Int.add_emod_self, Int.emod_emod]
  · have hv1 : 0 ≤ -v := by omega
    have h0 : Int.tmod v N = -((-v) % N) := by
      have h := Int.neg_tdiv (-v) N
      rw [Int.neg_neg, Int.tdiv_eq_ediv hv1 (le_of_lt hN)] at h
      rw [Int.tmod_def, h, Int.emod_def]
      ring
    have h1 := Int.emod_nonneg (-v) (ne_of_gt hN)
    have h2 := Int.emod_lt_of_pos (-v) hN
    rw [h0, Int.tmod_eq_emod (by omega) (le_of_lt hN), Int.add_emod_self]
    have h3 := Int.emod_add_ediv (-v) N
    have h4 : v = -((-v) % N) + N * (-((-v) / N)) := by
      have h5 : N * (-((-v) / N)) = -(N * ((-v) / N)) := by ring
      rw [h5]; omega
    conv_rhs => rw [h4]
    rw [Int.add_mul_emod_self_left]

/-- The index expression of the code, `(v + d + N) % N`, is the wrap of the specification. -/
theorem code_wrap (v d : Int) (hv0 : 0 ≤ v) (hd : -1 ≤ d) :
    Int.tmod (v + d + 300) 300 = wrap (v + d) 300 := by
  rw [wrap_eq_emod _ _ (by norm_num), Int.tmod_eq_emod (by omega) (by norm_num)]
  omega

theorem wrap_columns (v : Int) : wrap v COLUMNS = v % 300 :=
  wrap_eq_emod v 300 (by norm_num)

theorem wrap_rows (v : Int) : wrap v ROWS = v % 300 :=
  wrap_eq_emod v 300 (by norm_num)

theorem wrap_range (v : Int) : 0 ≤ wrap v 300 ∧ wrap v 300 < 300 := by
  rw [wrap_eq_emod _ _ (by norm_num)]
  omega

theorem get_neighbors_sum_unfold [CFloat F] (board : Board F) (settings : settings_t F)
    (x y : Int) :
    get_neighbors_sum board x y settings =
      CFloat.add (CFloat.add (CFloat.add (CFloat.add (CFloat.add (CFloat.add (CFloat.add
        (CFloat.add (CFloat.add (CFloat.ofInt 0)
        (CFloat.mul (board (get_index (Int.tmod (x + (-1) + 300) 300) (Int.tmod (y + (-1) + 300) 300)))
          (settings.filter (-1 + 1) (-1 + 1))))
        (CFloat.mul (board (get_index (Int.tmod (x + 0 + 300) 300) (Int.tmod (y + (-1) + 300) 300)))
          (settings.filter (0 + 1) (-1 + 1))))
        (CFloat.mul (board (get_index (Int.tmod (x + 1 + 300) 300) (Int.tmod (y + (-1) + 300) 300)))
          (settings.filter (1 + 1) (-1 + 1))))
        (CFloat.mul (board (get_index (Int.tmod (x + (-1) + 300) 300) (Int.tmod (y + 0 + 300) 300)))
          (settings.filter (-1 + 1) (0 + 1))))
        (CFloat.mul (board (get_index (Int.tmod (x + 0 + 300) 300) (Int.tmod (y + 0 + 300) 300)))
          (settings.filter (0 + 1) (0 + 1))))
        (CFloat.mul (board (get_index (Int.tmod (x + 1 + 300) 300) (Int.tmod (y + 0 + 300) 300)))
          (settings.filter (1 + 1) (0 + 1))))
        (CFloat.mul (board (get_index (Int.tmod (x + (-1) + 300) 300) (Int.tmod (y + 1 + 300) 300)))
          (settings.filter (-1 + 1) (1 + 1))))
        (CFloat.mul (board (get_index (Int.tmod (x + 0 + 300) 300) (Int.tmod (y + 1 + 300) 300)))
          (settings.filter (0 + 1) (1 + 1))))
        (CFloat.mul (board (get_index (Int.tmod (x + 1 + 300) 300) (Int.tmod (y + 1 + 300) 300)))
          (settings.filter (1 + 1) (1 + 1))) := by
  rfl

/-- On the grid the code computes the neighbor sum of the specification. -/
theorem get_neighbors_sum_eq_spec [CFloat F] (board : Board F) (settings : settings_t F)
    (x y : Int) (hx0 : 0 ≤ x) (hy0 : 0 ≤ y) :
    get_neighbors_sum board x y settings = neighbor_sum_spec board settings x y := by
  rw [get_neighbors_sum_unfold]
  rw [code_wrap x (-1) hx0 (by norm_num), code_wrap x 0 hx0 (by norm_num),
    code_wrap x 1 hx0 (by norm_num), code_wrap y (-1) hy0 (by norm_num),
    code_wrap y 0 hy0 (by norm_num), code_wrap y 1 hy0 (by norm_num)]
  rfl

theorem wrapped_cell_self (board : Board F) (x y : Int)
    (hx0 : 0 ≤ x) (hx1 : x < COLUMNS) (hy0 : 0 ≤ y) (hy1 : y < ROWS) :
    wrapped_cell board x y 0 0 = board (get_index x y) := by
  simp only [COLUMNS, ROWS] at hx1 hy1
  unfold wrapped_cell
  rw [wrap_columns, wrap_rows]
  have h1 : (x + 0) % 300 = x := by omega
  have h2 : (y + 0) % 300 = y := by omega
  rw [h1, h2]

end Wrap

section FloatLemmas

variable {F : Type} [CFloat F]

theorem FVal.le_fin_fin (p q : ℚ) : FVal.le (FVal.fin p) (FVal.fin q) = decide (p ≤ q) := by
  simp only [FVal.le, FVal.lt, FVal.eq]
  by_cases h : p ≤ q
  · rcases lt_or_eq_of_le h with h1 | h1 <;> simp [h, h1]
  · have h1 : ¬ p < q := fun h2 => h (le_of_lt h2)
    have h2 : ¬ p = q := fun h2 => h (le_of_eq h2)
    simp [h, h1, h2]

theorem val_zero : CFloat.val (CFloat.ofInt 0 : F) = FVal.fin 0 := by
  have h := @CFloat.ofInt_exact F _ 0 (by norm_num) (by norm_num)
  simpa using h

theorem val_one : CFloat.val (CFloat.ofInt 1 : F) = FVal.fin 1 := by
  have h := @CFloat.ofInt_exact F _ 1 (by norm_num) (by norm_num)
  simpa using h

theorem in01_zero : in01 (CFloat.ofInt 0 : F) = true := by
  simp [in01, fle, val_zero, val_one, FVal.le_fin_fin]

theorem in01_one : in01 (CFloat.ofInt 1 : F) = true := by
  simp [in01, fle, val_zero, val_one, FVal.le_fin_fin]

/-- A NaN goes through `clamp` unchanged. -/
theorem clamp_nan (v lo hi : F) (hv : CFloat.val v = FVal.nan) : clamp v lo hi = v := by
  simp [clamp, flt, hv, FVal.lt]

/-- Anything but a NaN is clamped into `[0.0, 1.0]`. -/
theorem clamp_in01 (v : F) (hv : CFloat.val v ≠ FVal.nan) :
    in01 (clamp v (CFloat.ofInt 0) (CFloat.ofInt 1)) = true := by
  unfold clamp flt
  rw [val_zero, val_one]
  cases hw : CFloat.val v with
  | nan => exact absurd hw hv
  | ninf => simp [FVal.lt, in01_zero]
  | pinf => simp [FVal.lt, in01_one]
  | fin q =>
    by_cases h0 : q < 0
    · simp [FVal.lt, h0, in01_zero]
    · by_cases h1 : 1 < q
      · simp [FVal.lt, h0, h1, in01_one]
      · have h2 : 0 ≤ q := not_lt.mp h0
        have h3 : q ≤ 1 := not_lt.mp h1
        simp [FVal.lt, h0, h1, in01, fle, val_zero, val_one, hw, FVal.le_fin_fin, h2, h3]

theorem put_pixel_cell (x : F) (y : Int) (board : Board F) (k : Int) :
    put_pixel x y board k = board k ∨ put_pixel x y board k = CFloat.ofInt 1 := by
  unfold put_pixel
  split
  · exact Or.inl rfl
  · split
    · exact Or.inl rfl
    · unfold write
      split
      · exact Or.inr rfl
      · exact Or.inl rfl

theorem erase_pixel_cell (x y : Int) (board : Board F) (k : Int) :
    erase_pixel x y board k = board k ∨ erase_pixel x y board k = CFloat.ofInt 0 := by
  unfold erase_pixel
  split
  · exact Or.inl rfl
  · split
    · exact Or.inl rfl
    · unfold write
      split
      · exact Or.inr rfl
      · exact Or.inl rfl

theorem FVal.eq_fin_iff (a : FVal) (q : ℚ) : FVal.eq a (FVal.fin q) = true ↔ a = FVal.fin q := by
  cases a <;> simp [FVal.eq]

theorem feq_ofInt_iff (v : F) (n : Int) (h0 : -16777216 ≤ n) (h1 : n ≤ 16777216) :
    feq v (CFloat.ofInt n) = true ↔ CFloat.val v = FVal.fin n := by
  unfold feq
  rw [CFloat.ofInt_exact n h0 h1]
  exact FVal.eq_fin_iff _ _

theorem clamp_zero : clamp (CFloat.ofInt 0 : F) (CFloat.ofInt 0) (CFloat.ofInt 1) = CFloat.ofInt 0 := by
  simp [clamp, flt, val_zero, val_one, FVal.lt]

theorem clamp_one : clamp (CFloat.ofInt 1 : F) (CFloat.ofInt 0) (CFloat.ofInt 1) = CFloat.ofInt 1 := by
  simp [clamp, flt, val_zero, val_one, FVal.lt]

theorem val_mul_zero_left (a w : F) (q : ℚ) (ha : CFloat.val a = FVal.fin 0)
    (hw : CFloat.val w = FVal.fin q) : CFloat.val (CFloat.mul a w) = FVal.fin 0 := by
  have h := CFloat.mul_exact a w (CFloat.ofInt 0) 0 q ha hw (by rw [zero_mul]; exact val_zero)
  rw [zero_mul] at h
  exact h

theorem val_mul_one_left (a w : F) (q : ℚ) (ha : CFloat.val a = FVal.fin 1)
    (hw : CFloat.val w = FVal.fin q) : CFloat.val (CFloat.mul a w) = FVal.fin q := by
  have h := CFloat.mul_exact a w w 1 q ha hw (by rw [one_mul]; exact hw)
  rw [one_mul] at h
  exact h

theorem val_add_zero_right (a b : F) (p : ℚ) (ha : CFloat.val a = FVal.fin p)
    (hb : CFloat.val b = FVal.fin 0) : CFloat.val (CFloat.add a b) = FVal.fin p := by
  have h := CFloat.add_exact a b a p 0 ha hb (by rw [add_zero]; exact ha)
  rw [add_zero] at h
  exact h

theorem val_add_zero_left (a b : F) (q : ℚ) (ha : CFloat.val a = FVal.fin 0)
    (hb : CFloat.val b = FVal.fin q) : CFloat.val (CFloat.add a b) = FVal.fin q := by
  have h := CFloat.add_exact a b b 0 q ha hb (by rw [zero_add]; exact hb)
  rw [zero_add] at h
  exact h

theorem val_ofNat (n : Nat) (h : n ≤ 16777216) :
    CFloat.val (CFloat.ofInt (n : Int) : F) = FVal.fin (n : ℚ) := by
  have h1 := @CFloat.ofInt_exact F _ (n : Int) (by omega) (by omega)
  simpa using h1

theorem val_add_nat (a b : F) (p q : Nat) (ha : CFloat.val a = FVal.fin (p : ℚ))
    (hb : CFloat.val b = FVal.fin (q : ℚ)) (h : p + q ≤ 16777216) :
    CFloat.val (CFloat.add a b) = FVal.fin ((p + q : Nat) : ℚ) := by
  have hc : CFloat.val (CFloat.ofInt ((p + q : Nat) : Int) : F) = FVal.fin ((p : ℚ) + (q : ℚ)) := by
    rw [val_ofNat _ h, Nat.cast_add]
  have h1 := CFloat.add_exact a b _ (p : ℚ) (q : ℚ) ha hb hc
  rw [h1, Nat.cast_add]

theorem val_mul_nat (a b : F) (p q : Nat) (ha : CFloat.val a = FVal.fin (p : ℚ))
    (hb : CFloat.val b = FVal.fin (q : ℚ)) (h : p * q ≤ 16777216) :
    CFloat.val (CFloat.mul a b) = FVal.fin ((p * q : Nat) : ℚ) := by
  have hc : CFloat.val (CFloat.ofInt ((p * q : Nat) : Int) : F) = FVal.fin ((p : ℚ) * (q : ℚ)) := by
    rw [val_ofNat _ h, Nat.cast_mul]
  have h1 := CFloat.mul_exact a b _ (p : ℚ) (q : ℚ) ha hb hc
  rw [h1, Nat.cast_mul]

/-- Adding terms that are all zero leaves the value of the accumulator. -/
theorem foldl_add_zeros (f : Int × Int → F) (ts : List (Int × Int)) :
    ∀ (acc : F) (p : ℚ), CFloat.val acc = FVal.fin p →
      (∀ d ∈ ts, CFloat.val (f d) = FVal.fin 0) →
      CFloat.val (ts.foldl (fun acc d => CFloat.add acc (f d)) acc) = FVal.fin p := by
  induction ts with
  | nil => intro acc p h _; exact h
  | cons d rest ih =>
    intro acc p h hz
    rw [List.foldl_cons]
    apply ih
    · exact val_add_zero_right acc (f d) p h (hz d (List.mem_cons_self d rest))
    · intro e he
      exact hz e (List.mem_cons_of_mem d he)

/-- Adding, to a zero accumulator, terms of which only the one at `d0` may be
non-zero yields the value of that term. -/
theorem foldl_add_single (f : Int × Int → F) (d0 : Int × Int) (q : ℚ)
    (hq : CFloat.val (f d0) = FVal.fin q) (ts : List (Int × Int)) :
    ts.Nodup → d0 ∈ ts → (∀ d ∈ ts, d ≠ d0 → CFloat.val (f d) = FVal.fin 0) →
      ∀ acc : F, CFloat.val acc = FVal.fin 0 →
      CFloat.val (ts.foldl (fun acc d => CFloat.add acc (f d)) acc) = FVal.fin q := by
  induction ts with
  | nil => intro _ hmem; exact absurd hmem (List.not_mem_nil d0)
  | cons d rest ih =>
    intro hnd hmem hz acc hacc
    rw [List.foldl_cons]
    rw [List.nodup_cons] at hnd
    by_cases hd : d = d0
    · subst hd
      apply foldl_add_zeros
      · exact val_add_zero_left acc (f d) q hacc hq
      · intro e he
        apply hz e (List.mem_cons_of_mem d he)
        intro h
        rw [h] at he
        exact hnd.1 he
    · have hmem2 : d0 ∈ rest := by
        rcases List.mem_cons.mp hmem with h | h
        · exact absurd h.symm hd
        · exact h
      apply ih hnd.2 hmem2
      · intro e he hne
        exact hz e (List.mem_cons_of_mem d he) hne
      · exact val_add_zero_right acc (f d) 0 hacc (hz d (List.mem_cons_self d rest) hd)

/-- Adding terms that denote naturals is exact as long as the total stays below `2^24`. -/
theorem foldl_add_nat (f : Int × Int → F) (n : Int × Int → Nat) (ts : List (Int × Int)) :
    ∀ (acc : F) (p : Nat), CFloat.val acc = FVal.fin (p : ℚ) →
      (∀ d ∈ ts, CFloat.val (f d) = FVal.fin (n d : ℚ)) →
      p + (ts.map n).sum ≤ 16777216 →
      CFloat.val (ts.foldl (fun acc d => CFloat.add acc (f d)) acc)
        = FVal.fin ((p + (ts.map n).sum : Nat) : ℚ) := by
  induction ts with
  | nil => intro acc p h _ _; simpa using h
  | cons d rest ih =>
    intro acc p h hn hle
    rw [List.foldl_cons]
    rw [List.map_cons, List.sum_cons] at hle ⊢
    have h1 := val_add_nat acc (f d) p (n d) h (hn d (List.mem_cons_self d rest)) (by omega)
    have h2 := ih (CFloat.add acc (f d)) (p + n d) h1
      (fun e he => hn e (List.mem_cons_of_mem d he)) (by omega)
    rw [h2, Nat.add_assoc]

end FloatLemmas

section Neighbourhood

variable {F : Type} [CFloat F]

theorem mem_offsets (d : Int × Int) :
    d ∈ offsets ↔ (-1 ≤ d.1 ∧ d.1 ≤ 1 ∧ -1 ≤ d.2 ∧ d.2 ≤ 1) := by
  obtain ⟨a, b⟩ := d
  simp only [offsets, List.mem_cons, Prod.mk.injEq, List.mem_singleton, List.not_mem_nil,
    or_false]
  omega

theorem offsets_nodup : offsets.Nodup := by decide

/-- On a board with a single live cell, the cell at offset `(j, i)` from `(x, y)`. -/
theorem lone_wrapped_cell (board : Board F) (cx cy x y j i : Int)
    (hl : is_lone_cell board cx cy) :
    CFloat.val (wrapped_cell board x y j i)
      = if (x + j) % 300 = cx ∧ (y + i) % 300 = cy then FVal.fin 1 else FVal.fin 0 := by
  unfold wrapped_cell
  have h1 := wrap_range (x + j)
  have h2 := wrap_range (y + i)
  have h := hl (wrap (x + j) COLUMNS) (wrap (y + i) ROWS) h1.1 h1.2 h2.1 h2.2
  rw [h, wrap_columns, wrap_rows]

/-- The single live cell at `(cx, cy)` contributes exactly the weight
`filter[dx + 1][dy + 1]` to the sum of the cell at offset `(-dx, -dy)` on the torus. -/
theorem lone_cell_sum_hit (settings : settings_t F) (board : Board F) (cx cy x y dx dy : Int)
    (hfin : finite_kernel settings) (hl : is_lone_cell board cx cy)
    (hcx0 : 0 ≤ cx) (hcx1 : cx < COLUMNS) (hcy0 : 0 ≤ cy) (hcy1 : cy < ROWS)
    (hdx0 : -1 ≤ dx) (hdx1 : dx ≤ 1) (hdy0 : -1 ≤ dy) (hdy1 : dy ≤ 1)
    (hx : x = wrap (cx - dx) COLUMNS) (hy : y = wrap (cy - dy) ROWS) :
    CFloat.val (get_neighbors_sum board x y settings)
      = CFloat.val (settings.filter (dx + 1) (dy + 1)) := by
  rw [wrap_columns] at hx
  rw [wrap_rows] at hy
  simp only [COLUMNS, ROWS] at hcx1 hcy1
  obtain ⟨q, hq⟩ := hfin (dx + 1) (dy + 1) (by omega) (by omega) (by omega) (by omega)
  rw [get_neighbors_sum_eq_spec board settings x y (by omega) (by omega), hq]
  have hterm : CFloat.val ((fun d : Int × Int => weighted_cell board settings x y d.1 d.2) (dx, dy))
      = FVal.fin q := by
    show CFloat.val (weighted_cell board settings x y dx dy) = FVal.fin q
    unfold weighted_cell
    apply val_mul_one_left _ _ q _ hq
    rw [lone_wrapped_cell board cx cy x y dx dy hl, if_pos]
    omega
  refine foldl_add_single (fun d : Int × Int => weighted_cell board settings x y d.1 d.2)
    (dx, dy) q hterm offsets offsets_nodup ((mem_offsets _).mpr ⟨hdx0, hdx1, hdy0, hdy1⟩)
    ?_ _ val_zero
  intro d hd hne
  obtain ⟨j, i⟩ := d
  rw [mem_offsets] at hd
  simp only at hd
  obtain ⟨w, hw⟩ := hfin (j + 1) (i + 1) (by omega) (by omega) (by omega) (by omega)
  show CFloat.val (weighted_cell board settings x y j i) = FVal.fin 0
  unfold weighted_cell
  apply val_mul_zero_left _ _ w _ hw
  rw [lone_wrapped_cell board cx cy x y j i hl, if_neg]
  intro hji
  apply hne
  have h1 : j = dx := by omega
  have h2 : i = dy := by omega
  rw [h1, h2]

/-- A cell that is not within one step of the single live cell has
neighbor sum zero. -/
theorem lone_cell_sum_miss (settings : settings_t F) (board : Board F) (cx cy x y : Int)
    (hfin : finite_kernel settings) (hl : is_lone_cell board cx cy)
    (hx0 : 0 ≤ x) (hx1 : x < COLUMNS) (hy0 : 0 ≤ y) (hy1 : y < ROWS)
    (hmiss : ∀ dx dy : Int, -1 ≤ dx → dx ≤ 1 → -1 ≤ dy → dy ≤ 1 →
      ¬ (x = wrap (cx - dx) COLUMNS ∧ y = wrap (cy - dy) ROWS)) :
    CFloat.val (get_neighbors_sum board x y settings) = FVal.fin 0 := by
  simp only [COLUMNS, ROWS] at hx1 hy1
  rw [get_neighbors_sum_eq_spec board settings x y hx0 hy0]
  refine foldl_add_zeros (fun d : Int × Int => weighted_cell board settings x y d.1 d.2)
    offsets _ 0 val_zero ?_
  intro d hd
  obtain ⟨j, i⟩ := d
  rw [mem_offsets] at hd
  simp only at hd
  obtain ⟨w, hw⟩ := hfin (j + 1) (i + 1) (by omega) (by omega) (by omega) (by omega)
  show CFloat.val (weighted_cell board settings x y j i) = FVal.fin 0
  unfold weighted_cell
  apply val_mul_zero_left _ _ w _ hw
  rw [lone_wrapped_cell board cx cy x y j i hl, if_neg]
  intro hji
  apply hmiss j i hd.1 hd.2.1 hd.2.2.1 hd.2.2.2
  rw [wrap_columns, wrap_rows]
  omega

theorem life_activation_eq (G : F) :
    activation_game_of_life G
      = if CFloat.val G = FVal.fin 3 ∨ CFloat.val G = FVal.fin 11 ∨ CFloat.val G = FVal.fin 12
        then CFloat.ofInt 1 else CFloat.ofInt 0 := by
  have h3 : feq G (CFloat.ofInt 3) = true ↔ CFloat.val G = FVal.fin 3 := by
    have h := feq_ofInt_iff G 3 (by norm_num) (by norm_num)
    simpa using h
  have h11 : feq G (CFloat.ofInt 11) = true ↔ CFloat.val G = FVal.fin 11 := by
    have h := feq_ofInt_iff G 11 (by norm_num) (by norm_num)
    simpa using h
  have h12 : feq G (CFloat.ofInt 12) = true ↔ CFloat.val G = FVal.fin 12 := by
    have h := feq_ofInt_iff G 12 (by norm_num) (by norm_num)
    simpa using h
  unfold activation_game_of_life
  simp only [Bool.or_eq_true, h3, h11, h12, or_assoc]

theorem life_activation_of_val (G : F) (q : ℚ) (hG : CFloat.val G = FVal.fin q) :
    activation_game_of_life G
      = if q = 3 ∨ q = 11 ∨ q = 12 then CFloat.ofInt 1 else CFloat.ofInt 0 := by
  rw [life_activation_eq, hG]
  simp only [FVal.fin.injEq]

theorem val_filter_2 (a b : Int) (ha0 : 0 ≤ a) (ha1 : a ≤ 2) (hb0 : 0 ≤ b) (hb1 : b ≤ 2) :
    CFloat.val (filter_2 a b : F) = FVal.fin (if a = 1 ∧ b = 1 then 9 else 1) := by
  have h9 : CFloat.val (CFloat.ofInt 9 : F) = FVal.fin 9 := by
    have h := @CFloat.ofInt_exact F _ 9 (by norm_num) (by norm_num)
    simpa using h
  have ha : a = 0 ∨ a = 1 ∨ a = 2 := by omega
  have hb : b = 0 ∨ b = 1 ∨ b = 2 := by omega
  rcases ha with rfl | rfl | rfl <;> rcases hb with rfl | rfl | rfl <;>
    first
      | (rw [if_pos (by decide)]; exact h9)
      | (rw [if_neg (by decide)]; exact val_one)

theorem finite_kernel_2 : finite_kernel (settings_2 : settings_t F) :=
  fun a b ha0 ha1 hb0 hb1 => ⟨_, val_filter_2 a b ha0 ha1 hb0 hb1⟩

/-- The weight that `settings[2]` gives to the offset `d`, as a natural number. -/
theorem life_weight (d : Int × Int) (hd : d ∈ offsets) :
    CFloat.val ((settings_2 : settings_t F).filter (d.1 + 1) (d.2 + 1))
      = FVal.fin (((if d = (0, 0) then 9 else 1 : Nat)) : ℚ) := by
  obtain ⟨j, i⟩ := d
  rw [mem_offsets] at hd
  simp only at hd
  show CFloat.val (filter_2 (j + 1) (i + 1) : F) = _
  rw [val_filter_2 (j + 1) (i + 1) (by omega) (by omega) (by omega) (by omega)]
  by_cases h : j + 1 = 1 ∧ i + 1 = 1
  · have h1 : (j, i) = ((0 : Int), (0 : Int)) := by
      rw [Prod.mk.injEq]; omega
    rw [if_pos h, if_pos h1]; norm_num
  · have h1 : ¬ (j, i) = ((0 : Int), (0 : Int)) := by
      rw [Prod.mk.injEq]; omega
    rw [if_neg h, if_neg h1]; norm_num

/-- On a board where every cell is `1.0` the life-like neighbor sum is 17. -/
theorem all_alive_sum (board : Board F) (x y : Int) (hb : all_alive board)
    (hx0 : 0 ≤ x) (hy0 : 0 ≤ y) :
    CFloat.val (get_neighbors_sum board x y settings_2) = FVal.fin 17 := by
  rw [get_neighbors_sum_eq_spec board settings_2 x y hx0 hy0]
  have h0 : CFloat.val (CFloat.ofInt 0 : F) = FVal.fin ((0 : Nat) : ℚ) := by
    rw [val_zero]; norm_num
  have h := foldl_add_nat (fun d : Int × Int => weighted_cell board settings_2 x y d.1 d.2)
    (fun d => if d = (0, 0) then 9 else 1) offsets (CFloat.ofInt 0) 0 h0
    (by
      intro d hd
      show CFloat.val (weighted_cell board settings_2 x y d.1 d.2) = _
      unfold weighted_cell
      apply val_mul_one_left _ _ _ _ (life_weight d hd)
      unfold wrapped_cell
      have h1 := wrap_range (x + d.1)
      have h2 := wrap_range (y + d.2)
      exact hb _ _ h1.1 h1.2 h2.1 h2.2)
    (by decide)
  have hs : (0 + (offsets.map (fun d : Int × Int => if d = (0, 0) then 9 else 1)).sum : Nat)
      = 17 := by decide
  rw [hs] at h
  unfold neighbor_sum_spec
  rw [h]
  norm_num

/-- A cell of a binary board denotes 1 when it is live and 0 when it is not. -/
theorem binary_cell_val (v : F)
    (hv : CFloat.val v = FVal.fin 0 ∨ CFloat.val v = FVal.fin 1) :
    CFloat.val v = FVal.fin (((if is_live v then 1 else 0 : Nat)) : ℚ) := by
  unfold is_live feq
  rw [val_one]
  rcases hv with h | h <;> rw [h] <;> simp [FVal.eq]

/-- On a binary board the life-like neighbor sum is nine times the cell plus the
number of its live neighbours. -/
theorem binary_sum (board : Board F) (x y : Int) (hb : is_binary board)
    (hx0 : 0 ≤ x) (hx1 : x < COLUMNS) (hy0 : 0 ≤ y) (hy1 : y < ROWS) :
    CFloat.val (get_neighbors_sum board x y settings_2)
      = FVal.fin (((9 * (if is_live (board (get_index x y)) then 1 else 0)
          + live_neighbours board x y : Nat)) : ℚ) := by
  rw [get_neighbors_sum_eq_spec board settings_2 x y hx0 hy0]
  have h0 : CFloat.val (CFloat.ofInt 0 : F) = FVal.fin ((0 : Nat) : ℚ) := by
    rw [val_zero]; norm_num
  have hle : ∀ v : F, (if is_live v then 1 else 0 : Nat) ≤ 1 := by
    intro v; split <;> omega
  have hsum : (0 + (offsets.map (fun d : Int × Int =>
        (if is_live (wrapped_cell board x y d.1 d.2) then 1 else 0)
          * (if d = (0, 0) then 9 else 1))).sum : Nat)
      = 9 * (if is_live (board (get_index x y)) then 1 else 0) + live_neighbours board x y := by
    unfold live_neighbours
    rw [← wrapped_cell_self board x y hx0 hx1 hy0 hy1]
    simp only [offsets, neighbour_offsets, List.map_cons, List.map_nil, List.sum_cons,
      List.sum_nil, Prod.mk.injEq]
    norm_num
    omega
  have h := foldl_add_nat (fun d : Int × Int => weighted_cell board settings_2 x y d.1 d.2)
    (fun d => (if is_live (wrapped_cell board x y d.1 d.2) then 1 else 0)
      * (if d = (0, 0) then 9 else 1)) offsets (CFloat.ofInt 0) 0 h0
    (by
      intro d hd
      show CFloat.val (weighted_cell board settings_2 x y d.1 d.2) = _
      unfold weighted_cell
      have h1 := wrap_range (x + d.1)
      have h2 := wrap_range (y + d.2)
      have h3 := binary_cell_val (wrapped_cell board x y d.1 d.2)
        (hb _ _ h1.1 h1.2 h2.1 h2.2)
      have h4 := hle (wrapped_cell board x y d.1 d.2)
      apply val_mul_nat _ _ _ _ h3 (life_weight d hd)
      split_ifs <;> omega)
    (by
      rw [hsum]
      have h4 := hle (board (get_index x y))
      have h5 : live_neighbours board x y ≤ 8 := by
        unfold live_neighbours
        simp only [neighbour_offsets, List.map_cons, List.map_nil, List.sum_cons, List.sum_nil]
        have a1 := hle (wrapped_cell board x y (-1) (-1))
        have a2 := hle (wrapped_cell board x y 0 (-1))
        have a3 := hle (wrapped_cell board x y 1 (-1))
        have a4 := hle (wrapped_cell board x y (-1) 0)
        have a5 := hle (wrapped_cell board x y 1 0)
        have a6 := hle (wrapped_cell board x y (-1) 1)
        have a7 := hle (wrapped_cell board x y 0 1)
        have a8 := hle (wrapped_cell board x y 1 1)
        omega
      omega)
  rw [hsum] at h
  unfold neighbor_sum_spec
  exact h

theorem live_neighbours_le (board : Board F) (x y : Int) : live_neighbours board x y ≤ 8 := by
  have hle : ∀ v : F, (if is_live v then 1 else 0 : Nat) ≤ 1 := by
    intro v; split <;> omega
  unfold live_neighbours
  simp only [neighbour_offsets, List.map_cons, List.map_nil, List.sum_cons, List.sum_nil]
  have a1 := hle (wrapped_cell board x y (-1) (-1))
  have a2 := hle (wrapped_cell board x y 0 (-1))
  have a3 := hle (wrapped_cell board x y 1 (-1))
  have a4 := hle (wrapped_cell board x y (-1) 0)
  have a5 := hle (wrapped_cell board x y 1 0)
  have a6 := hle (wrapped_cell board x y (-1) 1)
  have a7 := hle (wrapped_cell board x y 0 1)
  have a8 := hle (wrapped_cell board x y 1 1)
  omega

/-- The sums 3, 11 and 12 are exactly the births and survivals of Conway's rule. -/
theorem conway_sums (alive : Bool) (n : Nat) (hn : n ≤ 8) :
    (((9 * (if alive then 1 else 0) + n : Nat) : ℚ) = 3 ∨
      ((9 * (if alive then 1 else 0) + n : Nat) : ℚ) = 11 ∨
      ((9 * (if alive then 1 else 0) + n : Nat) : ℚ) = 12) ↔ conway_next alive n = true := by
  have h3 : ∀ m : Nat, ((m : ℚ) = 3 ↔ m = 3) := fun m => by norm_cast
  have h11 : ∀ m : Nat, ((m : ℚ) = 11 ↔ m = 11) := fun m => by norm_cast
  have h12 : ∀ m : Nat, ((m : ℚ) = 12 ↔ m = 12) := fun m => by norm_cast
  rw [h3, h11, h12]
  cases alive
  · simp only [conway_next, Bool.not_false, Bool.true_and, Bool.false_and, Bool.or_false,
      beq_iff_eq, Bool.false_eq_true, if_false]
    omega
  · simp only [conway_next, Bool.not_true, Bool.true_and, Bool.false_and, Bool.false_or,
      Bool.or_eq_true, beq_iff_eq, if_true]
    omega

/-- One step of the life-like preset on a binary board, cell by cell. -/
theorem life_step_cell (new_board0 board : Board F) (x y : Int) (hb : is_binary board)
    (hx0 : 0 ≤ x) (hx1 : x < COLUMNS) (hy0 : 0 ≤ y) (hy1 : y < ROWS) :
    simulation settings_2 new_board0 board (get_index x y)
      = if conway_next (is_live (board (get_index x y))) (live_neighbours board x y)
        then CFloat.ofInt 1 else CFloat.ofInt 0 := by
  rw [simulation_cell settings_2 new_board0 board x y hx0 hx1 hy0 hy1]
  have hs := binary_sum board x y hb hx0 hx1 hy0 hy1
  have hact : (settings_2 : settings_t F).activation = activation_game_of_life := rfl
  rw [hact, life_activation_of_val _ _ hs]
  have key := conway_sums (is_live (board (get_index x y))) (live_neighbours board x y)
    (live_neighbours_le board x y)
  by_cases hc : conway_next (is_live (board (get_index x y))) (live_neighbours board x y) = true
  · rw [if_pos (key.mpr hc), if_pos hc, clamp_one]
  · rw [if_neg (fun h => hc (key.mp h)), if_neg hc, clamp_zero]

/-- After `put_pixel` on a cell of the grid the board is the old one with `1.0` there. -/
theorem put_pixel_in_range (board : Board F) (x y : Int)
    (hx0 : 0 ≤ x) (hx1 : x < COLUMNS) (hy0 : 0 ≤ y) (hy1 : y < ROWS) :
    put_pixel (CFloat.ofInt x) y board = write board (get_index x y) (CFloat.ofInt 1) := by
  simp only [COLUMNS, ROWS] at hx1 hy1
  have hv : CFloat.val (CFloat.ofInt x : F) = FVal.fin (x : ℚ) :=
    CFloat.ofInt_exact x (by omega) (by omega)
  have h300 : CFloat.val (CFloat.ofInt 300 : F) = FVal.fin 300 := by
    have h := @CFloat.ofInt_exact F _ 300 (by norm_num) (by norm_num)
    simpa using h
  have hq0 : (0 : ℚ) ≤ (x : ℚ) := by exact_mod_cast hx0
  have hq1 : (x : ℚ) < 300 := by exact_mod_cast hx1
  have g1 : flt (CFloat.ofInt x : F) (CFloat.ofInt 0) = false := by
    unfold flt
    rw [hv, val_zero]
    simp [FVal.lt, hx0]
  have g2 : fle (CFloat.ofInt COLUMNS : F) (CFloat.ofInt x) = false := by
    unfold fle
    rw [hv, h300, FVal.le_fin_fin]
    simp [hq1]
  have g3 : (decide (y < 0) || decide (y ≥ ROWS)) = false := by
    simp only [ROWS, Bool.or_eq_false_iff, decide_eq_false_iff_not]
    omega
  have ht : CFloat.toInt (CFloat.ofInt x : F) = x := by
    rw [CFloat.toInt_trunc _ (x : ℚ) hv (by linarith) (by linarith), if_pos hq0]
    exact Int.floor_intCast x
  unfold put_pixel
  rw [g1, g2, g3, ht]
  rfl

/-- After `erase_pixel` on a cell of the grid the board is the old one with `0.0` there. -/
theorem erase_pixel_in_range (board : Board F) (x y : Int)
    (hx0 : 0 ≤ x) (hx1 : x < COLUMNS) (hy0 : 0 ≤ y) (hy1 : y < ROWS) :
    erase_pixel x y board = write board (get_index x y) (CFloat.ofInt 0) := by
  simp only [COLUMNS, ROWS] at hx1 hy1
  have g1 : (decide (x < 0) || decide (x ≥ COLUMNS)) = false := by
    simp only [COLUMNS, Bool.or_eq_false_iff, decide_eq_false_iff_not]
    omega
  have g3 : (decide (y < 0) || decide (y ≥ ROWS)) = false := by
    simp only [ROWS, Bool.or_eq_false_iff, decide_eq_false_iff_not]
    omega
  unfold erase_pixel
  rw [g1, g3]
  rfl

/-- A negative `int` converts to a float below `0.0`. -/
theorem flt_ofInt_neg (x : Int) (hx : x < 0) :
    flt (CFloat.ofInt x : F) (CFloat.ofInt 0) = true := by
  have h1 := @CFloat.ofInt_mono F _ x (-1) (by omega)
  have h2 : CFloat.val (CFloat.ofInt (-1) : F) = FVal.fin (-1) := by
    have h := @CFloat.ofInt_exact F _ (-1) (by norm_num) (by norm_num)
    simpa using h
  unfold flt
  rw [val_zero]
  rw [h2] at h1
  cases hw : CFloat.val (CFloat.ofInt x : F) with
  | nan => rw [hw] at h1; simp [FVal.le, FVal.lt, FVal.eq] at h1
  | pinf => rw [hw] at h1; simp [FVal.le, FVal.lt, FVal.eq] at h1
  | ninf => rfl
  | fin q =>
    rw [hw, FVal.le_fin_fin] at h1
    have h3 : q ≤ -1 := of_decide_eq_true h1
    have h4 : q < 0 := by linarith
    simp [FVal.lt, h4]

/-- An `int` that is at least `COLUMNS` converts to a float that is at least `COLUMNS`. -/
theorem fle_ofInt_columns (x : Int) (hx : COLUMNS ≤ x) :
    fle (CFloat.ofInt COLUMNS : F) (CFloat.ofInt x) = true :=
  CFloat.ofInt_mono COLUMNS x hx

theorem get_index_inj (x y u v : Int) (hx0 : 0 ≤ x) (hx1 : x < COLUMNS)
    (hu0 : 0 ≤ u) (hu1 : u < COLUMNS) (h : get_index x y = get_index u v) : x = u ∧ y = v := by
  simp only [get_index, COLUMNS] at h hx1 hu1
  omega

theorem lone_board_is_lone (cx cy : Int) (hcx0 : 0 ≤ cx) (hcx1 : cx < COLUMNS) :
    is_lone_cell (lone_board cx cy : Board F) cx cy := by
  intro x y hx0 hx1 _ _
  unfold lone_board
  by_cases h : get_index x y = get_index cx cy
  · have h1 := get_index_inj x y cx cy hx0 hx1 hcx0 hcx1 h
    rw [if_pos h, if_pos h1, val_one]
  · have h1 : ¬ (x = cx ∧ y = cy) := fun h2 => h (by rw [h2.1, h2.2])
    rw [if_neg h, if_neg h1, val_zero]

theorem lone_is_binary (board : Board F) (cx cy : Int) (hl : is_lone_cell board cx cy) :
    is_binary board := by
  intro x y hx0 hx1 hy0 hy1
  rw [hl x y hx0 hx1 hy0 hy1]
  split
  · exact Or.inr rfl
  · exact Or.inl rfl

theorem const_one_all_alive : all_alive (const_board (CFloat.ofInt 1) : Board F) :=
  fun _ _ _ _ _ _ => val_one

theorem life_activation_not_nan (G : F) :
    CFloat.val (activation_game_of_life G) ≠ FVal.nan := by
  rw [life_activation_eq]
  split
  · rw [val_one]; exact fun h => FVal.noConfusion h
  · rw [val_zero]; exact fun h => FVal.noConfusion h

theorem write_write {F : Type} (b : Board F) (i : Int) (v : F) :
    write (write b i v) i v = write b i v := by
  funext k
  unfold write
  split <;> rfl

theorem write_self {F : Type} (b : Board F) (i : Int) (v : F) (h : b i = v) :
    write b i v = b := by
  funext k
  unfold write
  split
  · rename_i hk; rw [hk, h]
  · rfl

end Neighbourhood

section Claims

variable {F : Type} [CFloat F]

/-- C1, as amended: for every board and every rule, if the activation never
returns a NaN on the neighbor sums of the grid, then after `simulation` every cell
of the grid lies in `[0.0, 1.0]`; and `put_pixel` and `erase_pixel`, at any
coordinates, preserve "every cell of the grid lies in `[0.0, 1.0]`". -/
theorem range_invariant_unless_nan (settings : settings_t F) (new_board0 board : Board F)
    (px : F) (py ex ey : Int)
    (h_act : ∀ x y : Int, 0 ≤ x → x < COLUMNS → 0 ≤ y → y < ROWS →
      CFloat.val (settings.activation (get_neighbors_sum board x y settings)) ≠ FVal.nan) :
    range_ok (simulation settings new_board0 board) ∧
    (range_ok board →
      range_ok (put_pixel px py board) ∧ range_ok (erase_pixel ex ey board)) := by
  refine ⟨?_, fun hb => ⟨?_, ?_⟩⟩
  · intro x y hx0 hx1 hy0 hy1
    rw [simulation_cell settings new_board0 board x y hx0 hx1 hy0 hy1]
    exact clamp_in01 _ (h_act x y hx0 hx1 hy0 hy1)
  · intro x y hx0 hx1 hy0 hy1
    rcases put_pixel_cell px py board (get_index x y) with h | h
    · rw [h]; exact hb x y hx0 hx1 hy0 hy1
    · rw [h]; exact in01_one
  · intro x y hx0 hx1 hy0 hy1
    rcases erase_pixel_cell ex ey board (get_index x y) with h | h
    · rw [h]; exact hb x y hx0 hx1 hy0 hy1
    · rw [h]; exact in01_zero

/-- C1 fails as stated: with the life-like kernel and the identity as activation,
on the board holding NaN in every cell, cell (0, 0) holds NaN after `simulation`,
which is not in `[0.0, 1.0]`. -/
theorem nan_breaks_range_invariant :
    simulation (settings_t.mk filter_2 (fun v => v)) (const_board (FVal.fin 0))
        (const_board FVal.nan) (get_index 0 0) = FVal.nan ∧
      in01 (FVal.nan : FVal) = false ∧
      ¬ range_ok (simulation (settings_t.mk filter_2 (fun v => v)) (const_board (FVal.fin 0))
        (const_board FVal.nan)) := by
  have h : simulation (settings_t.mk filter_2 (fun v => v)) (const_board (FVal.fin 0))
      (const_board FVal.nan) (get_index 0 0) = FVal.nan := by
    rw [simulation_cell _ _ _ 0 0 (by decide) (by decide) (by decide) (by decide),
      get_neighbors_sum_unfold]
    rfl
  have h2 : in01 (FVal.nan : FVal) = false := rfl
  refine ⟨h, h2, fun hr => ?_⟩
  have h3 := hr 0 0 (by decide) (by decide) (by decide) (by decide)
  rw [h, h2] at h3
  exact Bool.noConfusion h3

/-- C2: for every board, rule and cell of the grid, the cell after `simulation`
is `clamp(activation(G), 0.0, 1.0)` with `G` the neighbor sum of that cell on the board
as it was before the call. -/
theorem simulation_double_buffered (settings : settings_t F) (new_board0 board : Board F)
    (x y : Int) (hx0 : 0 ≤ x) (hx1 : x < COLUMNS) (hy0 : 0 ≤ y) (hy1 : y < ROWS) :
    simulation settings new_board0 board (get_index x y)
      = clamp (settings.activation (get_neighbors_sum board x y settings))
          (CFloat.ofInt 0) (CFloat.ofInt 1) :=
  simulation_cell settings new_board0 board x y hx0 hx1 hy0 hy1

/-- C3: for every board, kernel and cell of the grid, `get_neighbors_sum` is the
nine-term sum of the specification: the cells at the wrapped offsets times
`filter[dx + 1][dy + 1]`, added to `0.0` row by row. -/
theorem neighbors_sum_formula (board : Board F) (settings : settings_t F) (x y : Int)
    (hx0 : 0 ≤ x) (_hx1 : x < COLUMNS) (hy0 : 0 ≤ y) (_hy1 : y < ROWS) :
    get_neighbors_sum board x y settings = neighbor_sum_spec board settings x y :=
  get_neighbors_sum_eq_spec board settings x y hx0 hy0

/-- C5: `activation_game_of_life(G)` is `1.0` when `G` equals `3.0`, `11.0` or `12.0`
and `0.0` for every other `G` (NaN and the infinities included); it is `1.0` at the
floats `3.0`, `11.0`, `12.0`, and `0.0` at every float strictly between `3.0` and
`11.0`, such as `3.0001f`. -/
theorem life_activation_exact (G : F) :
    activation_game_of_life G
        = (if CFloat.val G = FVal.fin 3 ∨ CFloat.val G = FVal.fin 11 ∨ CFloat.val G = FVal.fin 12
          then CFloat.ofInt 1 else CFloat.ofInt 0) ∧
      activation_game_of_life (CFloat.ofInt 3 : F) = CFloat.ofInt 1 ∧
      activation_game_of_life (CFloat.ofInt 11 : F) = CFloat.ofInt 1 ∧
      activation_game_of_life (CFloat.ofInt 12 : F) = CFloat.ofInt 1 ∧
      (∀ q : ℚ, CFloat.val G = FVal.fin q → 3 < q → q < 11 →
        activation_game_of_life G = CFloat.ofInt 0) := by
  refine ⟨life_activation_eq G, ?_, ?_, ?_, ?_⟩
  · have h := @CFloat.ofInt_exact F _ 3 (by norm_num) (by norm_num)
    rw [life_activation_of_val _ _ h]
    norm_num
  · have h := @CFloat.ofInt_exact F _ 11 (by norm_num) (by norm_num)
    rw [life_activation_of_val _ _ h]
    norm_num
  · have h := @CFloat.ofInt_exact F _ 12 (by norm_num) (by norm_num)
    rw [life_activation_of_val _ _ h]
    norm_num
  · intro q hq h3 h11
    rw [life_activation_of_val _ _ hq, if_neg]
    intro h
    rcases h with h | h | h <;> linarith

/-- C6, as amended: for every kernel whose nine entries are finite floats, every
board that is `0.0` everywhere except `1.0` at a cell `(cx, cy)` of the grid, and every
cell `(x, y)` of the grid: if `(x, y) = (wrap(cx - dx), wrap(cy - dy))` for an offset
`(dx, dy)` in `{-1, 0, 1}^2`, then `get_neighbors_sum(x, y)` equals
`filter[dx + 1][dy + 1]`, and if `(x, y)` is of that form for no offset, it equals `0`. -/
theorem lone_cell_contributions (settings : settings_t F) (board : Board F)
    (cx cy x y : Int) (hfin : finite_kernel settings) (hl : is_lone_cell board cx cy)
    (hcx0 : 0 ≤ cx) (hcx1 : cx < COLUMNS) (hcy0 : 0 ≤ cy) (hcy1 : cy < ROWS)
    (hx0 : 0 ≤ x) (hx1 : x < COLUMNS) (hy0 : 0 ≤ y) (hy1 : y < ROWS) :
    (∀ dx dy : Int, -1 ≤ dx → dx ≤ 1 → -1 ≤ dy → dy ≤ 1 →
      x = wrap (cx - dx) COLUMNS → y = wrap (cy - dy) ROWS →
      CFloat.val (get_neighbors_sum board x y settings)
        = CFloat.val (settings.filter (dx + 1) (dy + 1))) ∧
    ((∀ dx dy : Int, -1 ≤ dx → dx ≤ 1 → -1 ≤ dy → dy ≤ 1 →
        ¬ (x = wrap (cx - dx) COLUMNS ∧ y = wrap (cy - dy) ROWS)) →
      CFloat.val (get_neighbors_sum board x y settings) = FVal.fin 0) :=
  ⟨fun dx dy hdx0 hdx1 hdy0 hdy1 hx hy =>
      lone_cell_sum_hit settings board cx cy x y dx dy hfin hl hcx0 hcx1 hcy0 hcy1
        hdx0 hdx1 hdy0 hdy1 hx hy,
    fun hmiss => lone_cell_sum_miss settings board cx cy x y hfin hl hx0 hx1 hy0 hy1 hmiss⟩

/-- C4: on a board whose cells are all `0.0` or `1.0`, one `simulation` with
`settings[2]` is one step of Conway's B3/S23: a cell of the grid becomes `1.0` when it
was dead with 3 live neighbours or live with 2 or 3 live neighbours, and `0.0`
otherwise; a dead cell with 4 live neighbours has sum 4 and stays dead; the board
stays binary. -/
theorem life_preset_is_conway (new_board0 board : Board F) (x y : Int) (hb : is_binary board)
    (hx0 : 0 ≤ x) (hx1 : x < COLUMNS) (hy0 : 0 ≤ y) (hy1 : y < ROWS) :
    simulation settings_2 new_board0 board (get_index x y)
        = (if conway_next (is_live (board (get_index x y))) (live_neighbours board x y)
          then CFloat.ofInt 1 else CFloat.ofInt 0) ∧
      (is_live (board (get_index x y)) = false → live_neighbours board x y = 4 →
        CFloat.val (get_neighbors_sum board x y settings_2) = FVal.fin 4 ∧
        simulation settings_2 new_board0 board (get_index x y) = CFloat.ofInt 0) ∧
      is_binary (simulation settings_2 new_board0 board) := by
  have h := life_step_cell new_board0 board x y hb hx0 hx1 hy0 hy1
  refine ⟨h, ?_, ?_⟩
  · intro hdead h4
    constructor
    · rw [binary_sum board x y hb hx0 hx1 hy0 hy1, hdead, h4]
      norm_num
    · rw [h, hdead, h4]
      rfl
  · intro u v hu0 hu1 hv0 hv1
    rw [life_step_cell new_board0 board u v hb hu0 hu1 hv0 hv1]
    split
    · exact Or.inr val_one
    · exact Or.inl val_zero

/-- C7: on a board where every cell is `1.0`, with the kernel of `settings[2]`, the
neighbor sum of every cell of the grid is `9 + 8 = 17`, and this sum is what the
generation buffer holds for the cell once the first pass of `simulation` is over. -/
theorem all_alive_sum_is_17 (new_board0 board : Board F) (x y : Int) (hb : all_alive board)
    (hx0 : 0 ≤ x) (hx1 : x < COLUMNS) (hy0 : 0 ≤ y) (hy1 : y < ROWS) :
    CFloat.val (get_neighbors_sum board x y settings_2) = FVal.fin (9 + 8) ∧
      CFloat.val (simulation_buffer settings_2 new_board0 board (get_index x y))
        = FVal.fin 17 := by
  have h := all_alive_sum board x y hb hx0 hy0
  rw [simulation_buffer_cell settings_2 new_board0 board x y hx0 hx1 hy0 hy1, h]
  norm_num

/-- C8: on a board that is `0.0` everywhere except `1.0` at a cell `(cx, cy)` of the
grid, under `settings[2]` the neighbor sum at `(cx, cy)` is 9 and the sum at each of
its four edge neighbours on the torus is 1, and after one `simulation` the cell and
those four neighbours hold `0.0`. -/
theorem lone_cell_dies (new_board0 board : Board F) (cx cy : Int)
    (hl : is_lone_cell board cx cy)
    (hcx0 : 0 ≤ cx) (hcx1 : cx < COLUMNS) (hcy0 : 0 ≤ cy) (hcy1 : cy < ROWS) :
    CFloat.val (get_neighbors_sum board cx cy settings_2) = FVal.fin 9 ∧
      simulation settings_2 new_board0 board (get_index cx cy) = CFloat.ofInt 0 ∧
      ∀ ex ey : Int, (ex, ey) ∈ [((1 : Int), (0 : Int)), (-1, 0), (0, 1), (0, -1)] →
        CFloat.val (get_neighbors_sum board (wrap (cx + ex) COLUMNS) (wrap (cy + ey) ROWS)
          settings_2) = FVal.fin 1 ∧
        simulation settings_2 new_board0 board
          (get_index (wrap (cx + ex) COLUMNS) (wrap (cy + ey) ROWS)) = CFloat.ofInt 0 := by
  have hact : (settings_2 : settings_t F).activation = activation_game_of_life := rfl
  have hfil : (settings_2 : settings_t F).filter = filter_2 := rfl
  have hsum : ∀ ex ey : Int, -1 ≤ ex → ex ≤ 1 → -1 ≤ ey → ey ≤ 1 →
      CFloat.val (get_neighbors_sum board (wrap (cx + ex) COLUMNS) (wrap (cy + ey) ROWS)
        settings_2) = FVal.fin (if ex = 0 ∧ ey = 0 then 9 else 1) := by
    intro ex ey h1 h2 h3 h4
    have h := lone_cell_sum_hit settings_2 board cx cy (wrap (cx + ex) COLUMNS)
      (wrap (cy + ey) ROWS) (-ex) (-ey) finite_kernel_2 hl hcx0 hcx1 hcy0 hcy1
      (by omega) (by omega) (by omega) (by omega)
      (by rw [sub_neg_eq_add]) (by rw [sub_neg_eq_add])
    rw [h, hfil, val_filter_2 (-ex + 1) (-ey + 1) (by omega) (by omega) (by omega) (by omega)]
    by_cases h5 : ex = 0 ∧ ey = 0
    · rw [if_pos h5, if_pos (by omega)]
    · rw [if_neg h5, if_neg (by omega)]
  have hdead : ∀ (u v : Int) (q : ℚ), 0 ≤ u → u < COLUMNS → 0 ≤ v → v < ROWS →
      CFloat.val (get_neighbors_sum board u v settings_2) = FVal.fin q →
      ¬ (q = 3 ∨ q = 11 ∨ q = 12) →
      simulation settings_2 new_board0 board (get_index u v) = CFloat.ofInt 0 := by
    intro u v q hu0 hu1 hv0 hv1 hq hne
    rw [simulation_cell settings_2 new_board0 board u v hu0 hu1 hv0 hv1, hact,
      life_activation_of_val _ _ hq, if_neg hne, clamp_zero]
  have hself := hsum 0 0 (by norm_num) (by norm_num) (by norm_num) (by norm_num)
  have hwx : wrap (cx + 0) COLUMNS = cx := by
    simp only [COLUMNS] at hcx1
    rw [wrap_columns]; omega
  have hwy : wrap (cy + 0) ROWS = cy := by
    simp only [ROWS] at hcy1
    rw [wrap_rows]; omega
  rw [hwx, hwy] at hself
  have h9 : CFloat.val (get_neighbors_sum board cx cy settings_2) = FVal.fin 9 := by
    rw [hself]; norm_num
  refine ⟨h9, hdead cx cy 9 hcx0 hcx1 hcy0 hcy1 h9 (by norm_num), ?_⟩
  intro ex ey hmem
  simp only [List.mem_cons, Prod.mk.injEq, List.mem_singleton, List.not_mem_nil,
    or_false] at hmem
  have h1 : CFloat.val (get_neighbors_sum board (wrap (cx + ex) COLUMNS)
      (wrap (cy + ey) ROWS) settings_2) = FVal.fin 1 := by
    rw [hsum ex ey (by omega) (by omega) (by omega) (by omega), if_neg (by omega)]
  have hr1 := wrap_range (cx + ex)
  have hr2 := wrap_range (cy + ey)
  exact ⟨h1, hdead _ _ 1 hr1.1 hr1.2 hr2.1 hr2.2 h1 (by norm_num)⟩

/-- C9: for every board and all `int` coordinates of a cell of the grid, after
`put_pixel(x, y)` the cell is exactly `1.0` and a second `put_pixel(x, y)` changes
nothing; after `erase_pixel(x, y)` the cell is exactly `0.0` and a second
`erase_pixel(x, y)` changes nothing; `erase_pixel` on a cell that already holds `0.0`
leaves the whole board unchanged. -/
theorem paint_idempotent (board : Board F) (x y : Int)
    (hx0 : 0 ≤ x) (hx1 : x < COLUMNS) (hy0 : 0 ≤ y) (hy1 : y < ROWS) :
    put_pixel (CFloat.ofInt x) y board (get_index x y) = CFloat.ofInt 1 ∧
      put_pixel (CFloat.ofInt x) y (put_pixel (CFloat.ofInt x) y board)
        = put_pixel (CFloat.ofInt x) y board ∧
      erase_pixel x y board (get_index x y) = CFloat.ofInt 0 ∧
      erase_pixel x y (erase_pixel x y board) = erase_pixel x y board ∧
      (board (get_index x y) = CFloat.ofInt 0 → erase_pixel x y board = board) := by
  have hp : ∀ b : Board F, put_pixel (CFloat.ofInt x) y b
      = write b (get_index x y) (CFloat.ofInt 1) :=
    fun b => put_pixel_in_range b x y hx0 hx1 hy0 hy1
  have he : ∀ b : Board F, erase_pixel x y b = write b (get_index x y) (CFloat.ofInt 0) :=
    fun b => erase_pixel_in_range b x y hx0 hx1 hy0 hy1
  refine ⟨?_, ?_, ?_, ?_, ?_⟩
  · rw [hp, write_same]
  · rw [hp, hp, write_write]
  · rw [he, write_same]
  · rw [he, he, write_write]
  · intro h0
    rw [he, write_self _ _ _ h0]

/-- C10: for every board and all `int` coordinates with `x < 0`, `x >= COLUMNS`,
`y < 0` or `y >= ROWS`, `put_pixel(x, y)` and `erase_pixel(x, y)` return the board
unchanged: no cell is written. -/
theorem paint_out_of_range_is_noop (board : Board F) (x y : Int)
    (h : x < 0 ∨ x ≥ COLUMNS ∨ y < 0 ∨ y ≥ ROWS) :
    put_pixel (CFloat.ofInt x) y board = board ∧ erase_pixel x y board = board := by
  constructor
  · unfold put_pixel
    split
    · rfl
    · rename_i hg
      split
      · rfl
      · rename_i hy
        exfalso
        simp only [Bool.or_eq_true, decide_eq_true_eq, not_or] at hg hy
        rcases h with h | h | h | h
        · exact hg.1 (flt_ofInt_neg x h)
        · exact hg.2 (fle_ofInt_columns x h)
        · exact hy.1 h
        · exact hy.2 h
  · unfold erase_pixel
    split
    · rfl
    · rename_i hg
      split
      · rfl
      · rename_i hy
        exfalso
        simp only [Bool.or_eq_true, decide_eq_true_eq, not_or] at hg hy
        rcases h with h | h | h | h
        · exact hg.1 h
        · exact hg.2 h
        · exact hy.1 h
        · exact hy.2 h

/-- The life-like activation never returns NaN, so the range theorem applies to
the life-like preset on the board with one live cell at (2, 2). -/
theorem range_invariant_unless_nan_witness :
    (∀ x y : Int, 0 ≤ x → x < COLUMNS → 0 ≤ y → y < ROWS →
      CFloat.val ((settings_2 : settings_t FVal).activation
        (get_neighbors_sum (lone_board 2 2) x y settings_2)) ≠ FVal.nan) ∧
    range_ok (simulation (settings_2 : settings_t FVal) (const_board FVal.nan) (lone_board 2 2)) ∧
    (range_ok (lone_board 2 2 : Board FVal) →
      range_ok (put_pixel (FVal.fin 7) 3 (lone_board 2 2 : Board FVal)) ∧
      range_ok (erase_pixel 2 2 (lone_board 2 2 : Board FVal))) :=
  ⟨fun _ _ _ _ _ _ => life_activation_not_nan _,
    range_invariant_unless_nan settings_2 (const_board FVal.nan) (lone_board 2 2) (FVal.fin 7)
      3 2 2 (fun _ _ _ _ _ _ => life_activation_not_nan _)⟩

/-- The update formula at cell (2, 3) of the board with one live cell at (2, 2). -/
theorem simulation_double_buffered_witness :
    (0 : Int) ≤ 2 ∧ (2 : Int) < COLUMNS ∧ (0 : Int) ≤ 3 ∧ (3 : Int) < ROWS ∧
    simulation (settings_2 : settings_t FVal) (const_board FVal.nan) (lone_board 2 2)
        (get_index 2 3)
      = clamp ((settings_2 : settings_t FVal).activation
          (get_neighbors_sum (lone_board 2 2) 2 3 settings_2)) (CFloat.ofInt 0) (CFloat.ofInt 1) :=
  ⟨by decide, by decide, by decide, by decide,
    simulation_double_buffered settings_2 (const_board FVal.nan) (lone_board 2 2) 2 3
      (by decide) (by decide) (by decide) (by decide)⟩

/-- The sum formula at the edge cell (0, 299), whose neighbourhood wraps both ways. -/
theorem neighbors_sum_formula_witness :
    (0 : Int) ≤ 0 ∧ (0 : Int) < COLUMNS ∧ (0 : Int) ≤ 299 ∧ (299 : Int) < ROWS ∧
    get_neighbors_sum (lone_board 2 2 : Board FVal) 0 299 (settings_t.mk sample_kernel (fun v => v))
      = neighbor_sum_spec (lone_board 2 2) (settings_t.mk sample_kernel (fun v => v)) 0 299 :=
  ⟨by decide, by decide, by decide, by decide,
    neighbors_sum_formula (lone_board 2 2) (settings_t.mk sample_kernel (fun v => v)) 0 299
      (by decide) (by decide) (by decide) (by decide)⟩

theorem cross_board_is_binary : is_binary cross_board := by
  intro x y _ _ _ _
  unfold cross_board
  split
  · exact Or.inr val_one
  · exact Or.inl val_zero

/-- Conway's step at the dead cell (1, 1) of the board whose live cells are its four
edge neighbours: the sum is 4 and the cell stays dead. -/
theorem life_preset_is_conway_witness :
    is_binary cross_board ∧
    is_live (cross_board (get_index 1 1)) = false ∧
    live_neighbours cross_board 1 1 = 4 ∧
    simulation settings_2 (const_board FVal.nan) cross_board (get_index 1 1)
        = (if conway_next (is_live (cross_board (get_index 1 1)))
            (live_neighbours cross_board 1 1)
          then CFloat.ofInt 1 else CFloat.ofInt 0) ∧
    CFloat.val (get_neighbors_sum cross_board 1 1 settings_2) = FVal.fin 4 ∧
    simulation settings_2 (const_board FVal.nan) cross_board (get_index 1 1)
      = CFloat.ofInt 0 ∧
    is_binary (simulation settings_2 (const_board FVal.nan) cross_board) :=
  ⟨cross_board_is_binary, by decide, by decide,
    (life_preset_is_conway (const_board FVal.nan) cross_board 1 1 cross_board_is_binary
      (by decide) (by decide) (by decide) (by decide)).1,
    ((life_preset_is_conway (const_board FVal.nan) cross_board 1 1 cross_board_is_binary
      (by decide) (by decide) (by decide) (by decide)).2.1 (by decide) (by decide)).1,
    ((life_preset_is_conway (const_board FVal.nan) cross_board 1 1 cross_board_is_binary
      (by decide) (by decide) (by decide) (by decide)).2.1 (by decide) (by decide)).2,
    (life_preset_is_conway (const_board FVal.nan) cross_board 1 1 cross_board_is_binary
      (by decide) (by decide) (by decide) (by decide)).2.2⟩

/-- The activation at the float nearest to 3.0001 and at the rational 3.0001 itself. -/
theorem life_activation_exact_witness :
    (3 : ℚ) < 12583331 / 4194304 ∧ (12583331 / 4194304 : ℚ) < 11 ∧
    activation_game_of_life (FVal.fin (12583331 / 4194304)) = (CFloat.ofInt 0 : FVal) ∧
    (3 : ℚ) < 30001 / 10000 ∧ (30001 / 10000 : ℚ) < 11 ∧
    activation_game_of_life (FVal.fin (30001 / 10000)) = (CFloat.ofInt 0 : FVal) :=
  ⟨by norm_num, by norm_num,
    (life_activation_exact (FVal.fin (12583331 / 4194304))).2.2.2.2 _ rfl
      (by norm_num) (by norm_num),
    by norm_num, by norm_num,
    (life_activation_exact (FVal.fin (30001 / 10000))).2.2.2.2 _ rfl
      (by norm_num) (by norm_num)⟩

/-- The sample kernel is finite. -/
theorem sample_kernel_finite :
    finite_kernel (settings_t.mk sample_kernel (fun v => v) : settings_t FVal) :=
  fun _ _ _ _ _ _ => ⟨_, rfl⟩

/-- A live cell at the corner (0, 0) under a kernel with nine different entries: the
three cells across the edges receive `filter[2][2]`, `filter[2][1]` and
`filter[1][2]`, and the far cell (150, 150) receives nothing. -/
theorem lone_cell_contributions_witness :
    finite_kernel (settings_t.mk sample_kernel (fun v => v) : settings_t FVal) ∧
    is_lone_cell (lone_board 0 0 : Board FVal) 0 0 ∧
    CFloat.val (get_neighbors_sum (lone_board 0 0 : Board FVal) 299 299
        (settings_t.mk sample_kernel (fun v => v))) = CFloat.val (sample_kernel 2 2) ∧
    CFloat.val (get_neighbors_sum (lone_board 0 0 : Board FVal) 299 0
        (settings_t.mk sample_kernel (fun v => v))) = CFloat.val (sample_kernel 2 1) ∧
    CFloat.val (get_neighbors_sum (lone_board 0 0 : Board FVal) 0 299
        (settings_t.mk sample_kernel (fun v => v))) = CFloat.val (sample_kernel 1 2) ∧
    CFloat.val (get_neighbors_sum (lone_board 0 0 : Board FVal) 150 150
        (settings_t.mk sample_kernel (fun v => v))) = FVal.fin 0 :=
  ⟨sample_kernel_finite, lone_board_is_lone 0 0 (by decide) (by decide),
    (lone_cell_contributions (settings_t.mk sample_kernel (fun v => v)) (lone_board 0 0)
      0 0 299 299 sample_kernel_finite (lone_board_is_lone 0 0 (by decide) (by decide))
      (by decide) (by decide) (by decide) (by decide)
      (by decide) (by decide) (by decide) (by decide)).1 1 1
        (by decide) (by decide) (by decide) (by decide) (by decide) (by decide),
    (lone_cell_contributions (settings_t.mk sample_kernel (fun v => v)) (lone_board 0 0)
      0 0 299 0 sample_kernel_finite (lone_board_is_lone 0 0 (by decide) (by decide))
      (by decide) (by decide) (by decide) (by decide)
      (by decide) (by decide) (by decide) (by decide)).1 1 0
        (by decide) (by decide) (by decide) (by decide) (by decide) (by decide),
    (lone_cell_contributions (settings_t.mk sample_kernel (fun v => v)) (lone_board 0 0)
      0 0 0 299 sample_kernel_finite (lone_board_is_lone 0 0 (by decide) (by decide))
      (by decide) (by decide) (by decide) (by decide)
      (by decide) (by decide) (by decide) (by decide)).1 0 1
        (by decide) (by decide) (by decide) (by decide) (by decide) (by decide),
    (lone_cell_contributions (settings_t.mk sample_kernel (fun v => v)) (lone_board 0 0)
      0 0 150 150 sample_kernel_finite (lone_board_is_lone 0 0 (by decide) (by decide))
      (by decide) (by decide) (by decide) (by decide)
      (by decide) (by decide) (by decide) (by decide)).2
        (by
          intro dx dy h1 h2 h3 h4
          rw [wrap_columns, wrap_rows]
          omega)⟩

/-- C6 fails as stated: with a kernel whose entry `filter[0][0]` is plus infinity, on
the board that is `0.0` everywhere except `1.0` at (5, 5), the neighbor sum at (5, 5)
(offset `(0, 0)`) is NaN, because `0.0 * inf` is NaN, and not `filter[1][1] = 1.0`. -/
theorem infinite_kernel_breaks_lone_cell_sum :
    is_lone_cell (lone_board 5 5 : Board FVal) 5 5 ∧
    (5 : Int) = wrap (5 - 0) COLUMNS ∧ (5 : Int) = wrap (5 - 0) ROWS ∧
    get_neighbors_sum (lone_board 5 5 : Board FVal) 5 5 (settings_t.mk inf_kernel (fun v => v))
      = FVal.nan ∧
    inf_kernel (0 + 1) (0 + 1) = FVal.fin 1 ∧
    feq (get_neighbors_sum (lone_board 5 5 : Board FVal) 5 5
      (settings_t.mk inf_kernel (fun v => v))) (inf_kernel (0 + 1) (0 + 1)) = false := by
  have h : get_neighbors_sum (lone_board 5 5 : Board FVal) 5 5
      (settings_t.mk inf_kernel (fun v => v)) = FVal.nan := by
    rw [get_neighbors_sum_unfold]
    rfl
  refine ⟨lone_board_is_lone 5 5 (by decide) (by decide), by decide, by decide, h, rfl, ?_⟩
  rw [h]
  rfl

/-- The sum 17 at cell (1, 1) of the board holding `1.0` everywhere. -/
theorem all_alive_sum_is_17_witness :
    all_alive (const_board (CFloat.ofInt 1) : Board FVal) ∧
    CFloat.val (get_neighbors_sum (const_board (CFloat.ofInt 1) : Board FVal) 1 1 settings_2)
      = FVal.fin (9 + 8) ∧
    CFloat.val (simulation_buffer settings_2 (const_board FVal.nan)
      (const_board (CFloat.ofInt 1) : Board FVal) (get_index 1 1)) = FVal.fin 17 :=
  ⟨const_one_all_alive,
    all_alive_sum_is_17 (const_board FVal.nan) (const_board (CFloat.ofInt 1)) 1 1
      const_one_all_alive (by decide) (by decide) (by decide) (by decide)⟩

/-- The lone live cell at (2, 2). -/
theorem lone_cell_dies_witness :
    is_lone_cell (lone_board 2 2 : Board FVal) 2 2 ∧
    CFloat.val (get_neighbors_sum (lone_board 2 2 : Board FVal) 2 2 settings_2) = FVal.fin 9 ∧
    simulation settings_2 (const_board FVal.nan) (lone_board 2 2 : Board FVal) (get_index 2 2)
      = CFloat.ofInt 0 ∧
    ∀ ex ey : Int, (ex, ey) ∈ [((1 : Int), (0 : Int)), (-1, 0), (0, 1), (0, -1)] →
      CFloat.val (get_neighbors_sum (lone_board 2 2 : Board FVal) (wrap (2 + ex) COLUMNS)
        (wrap (2 + ey) ROWS) settings_2) = FVal.fin 1 ∧
      simulation settings_2 (const_board FVal.nan) (lone_board 2 2 : Board FVal)
        (get_index (wrap (2 + ex) COLUMNS) (wrap (2 + ey) ROWS)) = CFloat.ofInt 0 :=
  ⟨lone_board_is_lone 2 2 (by decide) (by decide),
    lone_cell_dies (const_board FVal.nan) (lone_board 2 2) 2 2
      (lone_board_is_lone 2 2 (by decide) (by decide))
      (by decide) (by decide) (by decide) (by decide)⟩

/-- Painting and erasing the edge cell (0, 299) of the empty board. -/
theorem paint_idempotent_witness :
    (0 : Int) ≤ 0 ∧ (0 : Int) < COLUMNS ∧ (0 : Int) ≤ 299 ∧ (299 : Int) < ROWS ∧
    put_pixel (CFloat.ofInt 0) 299 (const_board (CFloat.ofInt 0) : Board FVal) (get_index 0 299)
      = CFloat.ofInt 1 ∧
    put_pixel (CFloat.ofInt 0) 299
        (put_pixel (CFloat.ofInt 0) 299 (const_board (CFloat.ofInt 0) : Board FVal))
      = put_pixel (CFloat.ofInt 0) 299 (const_board (CFloat.ofInt 0) : Board FVal) ∧
    erase_pixel 0 299 (const_board (CFloat.ofInt 0) : Board FVal) (get_index 0 299)
      = CFloat.ofInt 0 ∧
    erase_pixel 0 299 (erase_pixel 0 299 (const_board (CFloat.ofInt 0) : Board FVal))
      = erase_pixel 0 299 (const_board (CFloat.ofInt 0) : Board FVal) ∧
    ((const_board (CFloat.ofInt 0) : Board FVal) (get_index 0 299) = CFloat.ofInt 0 →
      erase_pixel 0 299 (const_board (CFloat.ofInt 0) : Board FVal)
        = const_board (CFloat.ofInt 0)) :=
  ⟨by decide, by decide, by decide, by decide,
    paint_idempotent (const_board (CFloat.ofInt 0)) 0 299
      (by decide) (by decide) (by decide) (by decide)⟩

/-- Painting and erasing at (300, -1), outside the grid on both axes. -/
theorem paint_out_of_range_is_noop_witness :
    ((300 : Int) < 0 ∨ (300 : Int) ≥ COLUMNS ∨ (-1 : Int) < 0 ∨ (-1 : Int) ≥ ROWS) ∧
    put_pixel (CFloat.ofInt 300) (-1) (lone_board 2 2 : Board FVal) = lone_board 2 2 ∧
    erase_pixel 300 (-1) (lone_board 2 2 : Board FVal) = lone_board 2 2 :=
  ⟨by decide,
    paint_out_of_range_is_noop (lone_board 2 2) 300 (-1) (by decide)⟩

end Claims

section Locality

variable {F : Type} [CFloat F]

/-- The value of any index after the two nested write loops. -/
theorem fill_apply {F : Type} (f : Int → Int → F) (b : Board F) (k : Int) :
    for_loop 0 ROWS (fun y nb =>
      for_loop 0 COLUMNS (fun x nb => write nb (get_index x y) (f x y)) nb) b k
      = if 0 ≤ k / 300 ∧ k / 300 < 300 then f (k % 300) (k / 300) else b k := by
  have h := fill_rows f 300 0 b k
  have e : (0 ≤ k / 300 ∧ k / 300 < 0 + ((300 : Nat) : Int)) ↔ (0 ≤ k / 300 ∧ k / 300 < 300) := by
    omega
  simp only [e] at h
  exact h

/-- The value of any index of the board after `simulation`: a cell of the grid is
updated, every other index keeps its value. -/
theorem simulation_apply (settings : settings_t F) (new_board0 board : Board F) (k : Int) :
    simulation settings new_board0 board k
      = if 0 ≤ k / 300 ∧ k / 300 < 300 then
          clamp (settings.activation (get_neighbors_sum board (k % 300) (k / 300) settings))
            (CFloat.ofInt 0) (CFloat.ofInt 1)
        else board k := by
  have h := fill_apply (fun x y =>
    clamp (settings.activation (simulation_buffer settings new_board0 board (get_index x y)))
      (CFloat.ofInt 0) (CFloat.ofInt 1)) board k
  by_cases hk : 0 ≤ k / 300 ∧ k / 300 < 300
  · rw [if_pos hk] at h
    rw [if_pos hk, ← simulation_buffer_cell settings new_board0 board (k % 300) (k / 300)
      (by omega) (by simp only [COLUMNS]; omega) hk.1 hk.2]
    exact h
  · rw [if_neg hk] at h
    rw [if_neg hk]
    exact h

/-- Two folds that add the same terms are equal. -/
theorem foldl_add_congr (f g : Int × Int → F) (ts : List (Int × Int)) :
    (∀ d ∈ ts, f d = g d) → ∀ acc : F,
      ts.foldl (fun acc d => CFloat.add acc (f d)) acc
        = ts.foldl (fun acc d => CFloat.add acc (g d)) acc := by
  induction ts with
  | nil => intro _ _; rfl
  | cons d rest ih =>
    intro h acc
    rw [List.foldl_cons, List.foldl_cons, h d (List.mem_cons_self d rest)]
    exact ih (fun e he => h e (List.mem_cons_of_mem d he)) _

/-- The neighbor sum of a cell depends on the board through its nine wrapped cells only. -/
theorem neighbors_sum_local (settings : settings_t F) (b1 b2 : Board F) (x y : Int)
    (hx0 : 0 ≤ x) (hy0 : 0 ≤ y)
    (h : ∀ d ∈ offsets, wrapped_cell b1 x y d.1 d.2 = wrapped_cell b2 x y d.1 d.2) :
    get_neighbors_sum b1 x y settings = get_neighbors_sum b2 x y settings := by
  rw [get_neighbors_sum_eq_spec b1 settings x y hx0 hy0,
    get_neighbors_sum_eq_spec b2 settings x y hx0 hy0]
  unfold neighbor_sum_spec
  apply foldl_add_congr
  intro d hd
  unfold weighted_cell
  rw [h d hd]

/-- `get_index` is one-to-one on the grid. -/
theorem get_index_grid (x y : Int) (hx0 : 0 ≤ x) (hx1 : x < COLUMNS) (hy0 : 0 ≤ y)
    (hy1 : y < ROWS) :
    0 ≤ get_index x y ∧ get_index x y < COLUMNS * ROWS ∧
      get_index x y % 300 = x ∧ get_index x y / 300 = y := by
  simp only [get_index, COLUMNS, ROWS] at *
  omega

end Locality

section Order

theorem FVal.not_lt_of_le (l h : FVal) (hle : FVal.le l h = true) : FVal.lt h l = false := by
  cases l <;> cases h <;>
    simp [FVal.lt, FVal.le, FVal.eq, ← le_iff_lt_or_eq] at hle ⊢
  exact hle

theorem FVal.le_refl_of_le (l h : FVal) (hle : FVal.le l h = true) :
    FVal.le l l = true ∧ FVal.le h h = true := by
  cases l <;> cases h <;> simp [FVal.lt, FVal.le, FVal.eq] at hle ⊢

theorem FVal.le_refl_of_ne_nan (a : FVal) (ha : a ≠ FVal.nan) : FVal.le a a = true := by
  cases a <;> simp [FVal.lt, FVal.le, FVal.eq] at ha ⊢

theorem FVal.ne_nan_of_le_refl (a : FVal) (ha : FVal.le a a = true) : a ≠ FVal.nan := by
  cases a <;> simp [FVal.lt, FVal.le, FVal.eq] at ha ⊢

theorem FVal.le_of_not_lt (a l : FVal) (ha : a ≠ FVal.nan) (hl : FVal.le l l = true)
    (h : FVal.lt a l = false) : FVal.le l a = true := by
  cases a <;> cases l <;>
    simp [FVal.lt, FVal.le, FVal.eq, ← le_iff_lt_or_eq] at ha hl h ⊢
  exact h

theorem FVal.lt_of_lt_le (a l h : FVal) (h1 : FVal.lt a l = true)
    (h2 : FVal.le l h = true) : FVal.lt a h = true := by
  cases a <;> cases l <;> cases h <;>
    simp [FVal.lt, FVal.le, FVal.eq, ← le_iff_lt_or_eq] at h1 h2 ⊢
  linarith

theorem FVal.not_lt_of_lt (a b : FVal) (h : FVal.lt a b = true) : FVal.lt b a = false := by
  cases a <;> cases b <;> simp [FVal.lt] at h ⊢
  linarith

theorem FVal.eq_of_not_lt (a b : FVal) (ha : FVal.le a a = true) (hb : FVal.le b b = true)
    (h1 : FVal.lt a b = false) (h2 : FVal.lt b a = false) : a = b := by
  cases a <;> cases b <;>
    simp [FVal.lt, FVal.le, FVal.eq] at ha hb h1 h2 ⊢
  linarith

theorem FVal.max_of_not_lt (l a : FVal) (hl : FVal.le l l = true) (ha : FVal.le a a = true)
    (h : FVal.lt a l = false) : FVal.max l a = a := by
  unfold FVal.max
  by_cases h1 : FVal.lt l a = true
  · rw [if_pos h1]
  · rw [if_neg h1]
    exact FVal.eq_of_not_lt l a hl ha (by simpa using h1) h

end Order

section Saturation

variable {F : Type} [CFloat F]

/-- The three outcomes of `clamp` on a value that is not a NaN, for `lo <= hi`. -/
theorem clamp_outcome (v lo hi : F) (hle : fle lo hi = true) (hv : CFloat.val v ≠ FVal.nan)
    (r : F) (hr : clamp v lo hi = r) :
    in_range r lo hi = true ∧
      CFloat.val r = FVal.max (CFloat.val lo) (FVal.min (CFloat.val v) (CFloat.val hi)) ∧
      clamp r lo hi = r := by
  unfold fle at hle
  have hrefl := FVal.le_refl_of_le _ _ hle
  have hvv := FVal.le_refl_of_ne_nan _ hv
  have hhl := FVal.not_lt_of_le _ _ hle
  have hll := FVal.not_lt_of_le _ _ hrefl.1
  have hhh := FVal.not_lt_of_le _ _ hrefl.2
  by_cases h1 : flt v lo = true
  · have e : clamp v lo hi = lo := by simp [clamp, h1]
    rw [e] at hr
    subst hr
    unfold flt at h1
    have h2 : FVal.lt (CFloat.val hi) (CFloat.val v) = false :=
      FVal.not_lt_of_lt _ _ (FVal.lt_of_lt_le _ _ _ h1 hle)
    refine ⟨?_, ?_, ?_⟩
    · simp [in_range, fle, hrefl.1, hle]
    · have hmin : FVal.min (CFloat.val v) (CFloat.val hi) = CFloat.val v := by
        simp [FVal.min, h2]
      have hmax : FVal.max (CFloat.val lo) (CFloat.val v) = CFloat.val lo := by
        simp [FVal.max, FVal.not_lt_of_lt _ _ h1]
      rw [hmin, hmax]
    · simp [clamp, flt, hll, hhl]
  · have h1f : FVal.lt (CFloat.val v) (CFloat.val lo) = false := by
      unfold flt at h1
      simpa using h1
    by_cases h2 : flt hi v = true
    · have e : clamp v lo hi = hi := by simp [clamp, h1, h2]
      rw [e] at hr
      subst hr
      unfold flt at h2
      refine ⟨?_, ?_, ?_⟩
      · simp [in_range, fle, hrefl.2, hle]
      · have hmin : FVal.min (CFloat.val v) (CFloat.val hi) = CFloat.val hi := by
          simp [FVal.min, h2]
        rw [hmin, FVal.max_of_not_lt _ _ hrefl.1 hrefl.2 hhl]
      · simp [clamp, flt, hhh, hhl]
    · have h2f : FVal.lt (CFloat.val hi) (CFloat.val v) = false := by
        unfold flt at h2
        simpa using h2
      have e : clamp v lo hi = v := by simp [clamp, h1, h2]
      rw [e] at hr
      subst hr
      refine ⟨?_, ?_, ?_⟩
      · have a1 := FVal.le_of_not_lt _ _ hv hrefl.1 h1f
        have a2 := FVal.le_of_not_lt _ _ (FVal.ne_nan_of_le_refl _ hrefl.2) hvv h2f
        simp [in_range, fle, a1, a2]
      · have hmin : FVal.min (CFloat.val v) (CFloat.val hi) = CFloat.val v := by
          simp [FVal.min, h2f]
        rw [hmin, FVal.max_of_not_lt _ _ hrefl.1 hvv h1f]
      · exact e

end Saturation

section Shift

variable {F : Type}

/-- Reading the translated board around `(x, y)` is reading the board around the
translated cell. -/
theorem wrapped_cell_shift (a b : Int) (board : Board F) (x y dx dy : Int) :
    wrapped_cell (shift_board a b board) x y dx dy
      = wrapped_cell board (wrap (x - a) COLUMNS) (wrap (y - b) ROWS) dx dy := by
  unfold wrapped_cell shift_board
  have h1 := wrap_range (x + dx)
  have h2 := wrap_range (y + dy)
  have hg := get_index_grid _ _ h1.1 h1.2 h2.1 h2.2
  rw [if_pos ⟨hg.1, hg.2.1⟩]
  have e1 : wrap (get_index (wrap (x + dx) COLUMNS) (wrap (y + dy) ROWS) % COLUMNS - a) COLUMNS
      = wrap (wrap (x - a) COLUMNS + dx) COLUMNS := by
    have h3 : get_index (wrap (x + dx) COLUMNS) (wrap (y + dy) ROWS) % COLUMNS
        = wrap (x + dx) COLUMNS := hg.2.2.1
    rw [h3]
    simp only [wrap_columns]
    omega
  have e2 : wrap (get_index (wrap (x + dx) COLUMNS) (wrap (y + dy) ROWS) / COLUMNS - b) ROWS
      = wrap (wrap (y - b) ROWS + dy) ROWS := by
    have h3 : get_index (wrap (x + dx) COLUMNS) (wrap (y + dy) ROWS) / COLUMNS
        = wrap (y + dy) ROWS := hg.2.2.2
    rw [h3]
    simp only [wrap_rows]
    omega
  rw [e1, e2]

theorem shift_board_grid (a b : Int) (board : Board F) (k : Int)
    (hk : 0 ≤ k ∧ k < COLUMNS * ROWS) :
    shift_board a b board k
      = board (get_index (wrap (k % 300 - a) COLUMNS) (wrap (k / 300 - b) ROWS)) := by
  unfold shift_board
  rw [if_pos hk]

theorem shift_board_outside (a b : Int) (board : Board F) (k : Int)
    (hk : ¬ (0 ≤ k ∧ k < COLUMNS * ROWS)) : shift_board a b board k = board k := by
  unfold shift_board
  rw [if_neg hk]

/-- The neighbor sum of a cell on the translated board is the neighbor sum of the
translated cell. -/
theorem neighbors_sum_shift [CFloat F] (settings : settings_t F) (a b : Int) (board : Board F)
    (x y : Int) (hx0 : 0 ≤ x) (hy0 : 0 ≤ y) :
    get_neighbors_sum (shift_board a b board) x y settings
      = get_neighbors_sum board (wrap (x - a) COLUMNS) (wrap (y - b) ROWS) settings := by
  have h1 := wrap_range (x - a)
  have h2 := wrap_range (y - b)
  rw [get_neighbors_sum_eq_spec _ settings x y hx0 hy0,
    get_neighbors_sum_eq_spec _ settings _ _ h1.1 h2.1]
  unfold neighbor_sum_spec
  apply foldl_add_congr
  intro d _
  unfold weighted_cell
  rw [wrapped_cell_shift]

end Shift

section PresetLemmas

variable {F : Type} [CFloatMath F]

theorem val_mul_zero_right (w a : F) (q : ℚ) (hw : CFloat.val w = FVal.fin q)
    (ha : CFloat.val a = FVal.fin 0) : CFloat.val (CFloat.mul w a) = FVal.fin 0 := by
  have h := CFloat.mul_exact w a (CFloat.ofInt 0) q 0 hw ha (by rw [mul_zero]; exact val_zero)
  rw [mul_zero] at h
  exact h

/-- A float that denotes 0 goes through `clamp(., 0.0, 1.0)` unchanged. -/
theorem clamp_val_zero (z : F) (hz : CFloat.val z = FVal.fin 0) :
    clamp z (CFloat.ofInt 0) (CFloat.ofInt 1) = z := by
  simp [clamp, flt, hz, val_zero, val_one, FVal.lt]

theorem finite_kernel_0 : finite_kernel (settings_0 : settings_t F) := by
  intro a b ha0 ha1 hb0 hb1
  have ha : a = 0 ∨ a = 1 ∨ a = 2 := by omega
  have hb : b = 0 ∨ b = 1 ∨ b = 2 := by omega
  rcases ha with rfl | rfl | rfl <;> rcases hb with rfl | rfl | rfl <;>
    first
      | exact CFloatMath.lit_finite 0.565 (by norm_num) (by norm_num)
      | exact CFloatMath.lit_finite (-0.716) (by norm_num) (by norm_num)
      | exact CFloatMath.lit_finite 0.627 (by norm_num) (by norm_num)

theorem finite_kernel_1 (powf : F → F → F) :
    finite_kernel (settings_1 powf : settings_t F) := by
  intro a b ha0 ha1 hb0 hb1
  have ha : a = 0 ∨ a = 1 ∨ a = 2 := by omega
  have hb : b = 0 ∨ b = 1 ∨ b = 2 := by omega
  rcases ha with rfl | rfl | rfl <;> rcases hb with rfl | rfl | rfl <;>
    first
      | exact CFloatMath.lit_finite 0.68 (by norm_num) (by norm_num)
      | exact CFloatMath.lit_finite (-0.9) (by norm_num) (by norm_num)
      | exact CFloatMath.lit_finite (-0.66) (by norm_num) (by norm_num)

/-- `activation_waves` maps a zero to a zero. -/
theorem activation_waves_zero (z : F) (hz : CFloat.val z = FVal.fin 0) :
    CFloat.val (activation_waves z) = FVal.fin 0 := by
  obtain ⟨r, hr⟩ := @CFloatMath.lit_finite F _ 1.2 (by norm_num) (by norm_num)
  unfold activation_waves
  rw [CFloatMath.fabsf_val, val_mul_zero_right _ _ r hr hz]
  simp [FVal.abs]

/-- `activation_worms` maps a zero to a zero, by the exact cases of `powf`. -/
theorem activation_worms_zero (powf : F → F → F) (hp : powf_laws powf) (z : F)
    (hz : CFloat.val z = FVal.fin 0) :
    CFloat.val (activation_worms powf z) = FVal.fin 0 := by
  obtain ⟨r, hr⟩ := @CFloatMath.lit_finite F _ 0.6 (by norm_num) (by norm_num)
  have h2 : CFloat.val (CFloat.ofInt 2 : F) = FVal.fin 2 := by
    have h := @CFloat.ofInt_exact F _ 2 (by norm_num) (by norm_num)
    simpa using h
  have hm1 : CFloat.val (CFloat.ofInt (-1) : F) = FVal.fin (-1) := by
    have h := @CFloat.ofInt_exact F _ (-1) (by norm_num) (by norm_num)
    simpa using h
  have s1 := hp.zero_squared z (CFloat.ofInt 2) hz h2
  have s2 := val_mul_zero_right (CFloatMath.lit 0.6) _ r hr s1
  have s3 := hp.exponent_zero (CFloat.ofInt 2) _ s2
  have s4 : CFloat.val (CFloatMath.div (CFloat.ofInt (-1))
      (powf (CFloat.ofInt 2) (CFloat.mul (CFloatMath.lit 0.6) (powf z (CFloat.ofInt 2)))))
      = FVal.fin (-1) := by
    have h := CFloatMath.div_exact (CFloat.ofInt (-1) : F) _ (CFloat.ofInt (-1)) (-1) 1 hm1 s3
      (by norm_num) (by rw [div_one]; exact hm1)
    rw [div_one] at h
    exact h
  have s5 := CFloat.add_exact _ (CFloat.ofInt 1 : F) (CFloat.ofInt 0) (-1) 1 s4 val_one
    (by norm_num; exact val_zero)
  unfold activation_worms
  rw [s5]
  norm_num

/-- On a board of zeros every neighbor sum under a finite kernel is zero. -/
theorem zero_board_sum (settings : settings_t F) (board : Board F) (x y : Int)
    (hfin : finite_kernel settings) (hz : all_zero board) (hx0 : 0 ≤ x) (hy0 : 0 ≤ y) :
    CFloat.val (get_neighbors_sum board x y settings) = FVal.fin 0 := by
  rw [get_neighbors_sum_eq_spec board settings x y hx0 hy0]
  refine foldl_add_zeros (fun d : Int × Int => weighted_cell board settings x y d.1 d.2)
    offsets _ 0 val_zero ?_
  intro d hd
  obtain ⟨j, i⟩ := d
  rw [mem_offsets] at hd
  simp only at hd
  obtain ⟨w, hw⟩ := hfin (j + 1) (i + 1) (by omega) (by omega) (by omega) (by omega)
  show CFloat.val (weighted_cell board settings x y j i) = FVal.fin 0
  unfold weighted_cell wrapped_cell
  have h1 := wrap_range (x + j)
  have h2 := wrap_range (y + i)
  exact val_mul_zero_left _ _ w (hz _ _ h1.1 h1.2 h2.1 h2.2) hw

/-- Every preset has a finite kernel and an activation that maps a zero to a zero. -/
theorem preset_facts (powf : F → F → F) (hp : powf_laws powf) (s : settings_t F)
    (hs : s ∈ settings powf) :
    finite_kernel s ∧ ∀ z : F, CFloat.val z = FVal.fin 0 →
      CFloat.val (s.activation z) = FVal.fin 0 := by
  simp only [settings, List.mem_cons, List.mem_singleton, List.not_mem_nil, or_false] at hs
  rcases hs with rfl | rfl | rfl
  · exact ⟨finite_kernel_0, activation_waves_zero⟩
  · exact ⟨finite_kernel_1 powf, activation_worms_zero powf hp⟩
  · refine ⟨finite_kernel_2, ?_⟩
    intro z hz
    show CFloat.val (activation_game_of_life z) = FVal.fin 0
    rw [life_activation_of_val z 0 hz, if_neg (by norm_num)]
    exact val_zero

theorem get_neighbors_sum_transposed_unfold (board : Board F) (settings : settings_t F)
    (x y : Int) :
    get_neighbors_sum_transposed board x y settings =
      CFloat.add (CFloat.add (CFloat.add (CFloat.add (CFloat.add (CFloat.add (CFloat.add
        (CFloat.add (CFloat.add (CFloat.ofInt 0)
        (CFloat.mul (board (get_index (Int.tmod (x + (-1) + 300) 300) (Int.tmod (y + (-1) + 300) 300)))
          (settings.filter (-1 + 1) (-1 + 1))))
        (CFloat.mul (board (get_index (Int.tmod (x + 0 + 300) 300) (Int.tmod (y + (-1) + 300) 300)))
          (settings.filter (-1 + 1) (0 + 1))))
        (CFloat.mul (board (get_index (Int.tmod (x + 1 + 300) 300) (Int.tmod (y + (-1) + 300) 300)))
          (settings.filter (-1 + 1) (1 + 1))))
        (CFloat.mul (board (get_index (Int.tmod (x + (-1) + 300) 300) (Int.tmod (y + 0 + 300) 300)))
          (settings.filter (0 + 1) (-1 + 1))))
        (CFloat.mul (board (get_index (Int.tmod (x + 0 + 300) 300) (Int.tmod (y + 0 + 300) 300)))
          (settings.filter (0 + 1) (0 + 1))))
        (CFloat.mul (board (get_index (Int.tmod (x + 1 + 300) 300) (Int.tmod (y + 0 + 300) 300)))
          (settings.filter (0 + 1) (1 + 1))))
        (CFloat.mul (board (get_index (Int.tmod (x + (-1) + 300) 300) (Int.tmod (y + 1 + 300) 300)))
          (settings.filter (1 + 1) (-1 + 1))))
        (CFloat.mul (board (get_index (Int.tmod (x + 0 + 300) 300) (Int.tmod (y + 1 + 300) 300)))
          (settings.filter (1 + 1) (0 + 1))))
        (CFloat.mul (board (get_index (Int.tmod (x + 1 + 300) 300) (Int.tmod (y + 1 + 300) 300)))
          (settings.filter (1 + 1) (1 + 1))) := by
  rfl

/-- With a symmetric kernel the order of the two kernel indices does not matter. -/
theorem transposed_of_symmetric (board : Board F) (settings : settings_t F) (x y : Int)
    (hsym : ∀ a b : Int, 0 ≤ a → a ≤ 2 → 0 ≤ b → b ≤ 2 →
      settings.filter a b = settings.filter b a) :
    get_neighbors_sum board x y settings = get_neighbors_sum_transposed board x y settings := by
  rw [get_neighbors_sum_unfold, get_neighbors_sum_transposed_unfold]
  have e1 : settings.filter (0 + 1) (-1 + 1) = settings.filter (-1 + 1) (0 + 1) :=
    hsym _ _ (by decide) (by decide) (by decide) (by decide)
  have e2 : settings.filter (1 + 1) (-1 + 1) = settings.filter (-1 + 1) (1 + 1) :=
    hsym _ _ (by decide) (by decide) (by decide) (by decide)
  have e3 : settings.filter (1 + 1) (0 + 1) = settings.filter (0 + 1) (1 + 1) :=
    hsym _ _ (by decide) (by decide) (by decide) (by decide)
  rw [e1, e2, e3]

/-- The three preset kernels are symmetric. -/
theorem preset_symmetric (powf : F → F → F) (s : settings_t F) (hs : s ∈ settings powf)
    (a b : Int) (ha0 : 0 ≤ a) (ha1 : a ≤ 2) (hb0 : 0 ≤ b) (hb1 : b ≤ 2) :
    s.filter a b = s.filter b a := by
  have ha : a = 0 ∨ a = 1 ∨ a = 2 := by omega
  have hb : b = 0 ∨ b = 1 ∨ b = 2 := by omega
  simp only [settings, List.mem_cons, List.mem_singleton, List.not_mem_nil, or_false] at hs
  rcases hs with rfl | rfl | rfl <;> rcases ha with rfl | rfl | rfl <;>
    rcases hb with rfl | rfl | rfl <;> rfl

end PresetLemmas

section MoreClaims

variable {F : Type} [CFloat F]

/-- C11: for every rule and any two boards that agree on the nine toroidally wrapped
cells around a cell `(x, y)` of the grid, the cell holds the same value after
`simulation` on either board, whatever the generation buffers held; and from one
board and one rule `simulation` yields one board, whatever the buffer held. -/
theorem simulation_local_deterministic (settings : settings_t F)
    (new_board1 new_board2 b1 b2 : Board F) (x y : Int)
    (hx0 : 0 ≤ x) (hx1 : x < COLUMNS) (hy0 : 0 ≤ y) (hy1 : y < ROWS)
    (h : ∀ d ∈ offsets, wrapped_cell b1 x y d.1 d.2 = wrapped_cell b2 x y d.1 d.2) :
    simulation settings new_board1 b1 (get_index x y)
        = simulation settings new_board2 b2 (get_index x y) ∧
      simulation settings new_board1 b1 = simulation settings new_board2 b1 := by
  constructor
  · rw [simulation_cell settings new_board1 b1 x y hx0 hx1 hy0 hy1,
      simulation_cell settings new_board2 b2 x y hx0 hx1 hy0 hy1,
      neighbors_sum_local settings b1 b2 x y hx0 hy0 h]
  · funext k
    rw [simulation_apply, simulation_apply]

/-- C13: for `N >= 1`, `0 <= v < N` and `d` in `{-1, 0, 1}`, the index expression
`(v + d + N) % N` of the code, with the remainder of C, is at least 0, less than `N`
and equal to the `wrap(v + d, N)` of the specification; hence every board index that
`get_neighbors_sum` reads for a cell of the grid lies in `[0, COLUMNS * ROWS)`. -/
theorem wrap_index_in_range :
    (∀ N v d : Int, 1 ≤ N → 0 ≤ v → v < N → -1 ≤ d → d ≤ 1 →
      0 ≤ Int.tmod (v + d + N) N ∧ Int.tmod (v + d + N) N < N ∧
      Int.tmod (v + d + N) N = wrap (v + d) N) ∧
    (∀ (board : Board F) (settings : settings_t F) (x y : Int),
      0 ≤ x → x < COLUMNS → 0 ≤ y → y < ROWS →
      (get_neighbors_sum_traced board x y settings).1 = get_neighbors_sum board x y settings ∧
      (get_neighbors_sum_traced board x y settings).2.length = 9 ∧
      ∀ k ∈ (get_neighbors_sum_traced board x y settings).2, 0 ≤ k ∧ k < COLUMNS * ROWS) := by
  constructor
  · intro N v d hN hv0 hv1 hd0 hd1
    have hpos : 0 < N := by omega
    rw [wrap_eq_emod _ _ hpos, Int.tmod_eq_emod (by omega) (by omega), Int.add_emod_self]
    exact ⟨Int.emod_nonneg _ (by omega), Int.emod_lt_of_pos _ hpos, rfl⟩
  · intro board settings x y hx0 hx1 hy0 hy1
    simp only [COLUMNS, ROWS] at hx1 hy1
    have hx : ∀ d : Int, -1 ≤ d → 0 ≤ Int.tmod (x + d + 300) 300 ∧
        Int.tmod (x + d + 300) 300 < 300 := by
      intro d hd
      rw [Int.tmod_eq_emod (by omega) (by norm_num)]
      omega
    have hy : ∀ d : Int, -1 ≤ d → 0 ≤ Int.tmod (y + d + 300) 300 ∧
        Int.tmod (y + d + 300) 300 < 300 := by
      intro d hd
      rw [Int.tmod_eq_emod (by omega) (by norm_num)]
      omega
    have hlist : (get_neighbors_sum_traced board x y settings).2 =
        [get_index (Int.tmod (x + (-1) + 300) 300) (Int.tmod (y + (-1) + 300) 300),
         get_index (Int.tmod (x + 0 + 300) 300) (Int.tmod (y + (-1) + 300) 300),
         get_index (Int.tmod (x + 1 + 300) 300) (Int.tmod (y + (-1) + 300) 300),
         get_index (Int.tmod (x + (-1) + 300) 300) (Int.tmod (y + 0 + 300) 300),
         get_index (Int.tmod (x + 0 + 300) 300) (Int.tmod (y + 0 + 300) 300),
         get_index (Int.tmod (x + 1 + 300) 300) (Int.tmod (y + 0 + 300) 300),
         get_index (Int.tmod (x + (-1) + 300) 300) (Int.tmod (y + 1 + 300) 300),
         get_index (Int.tmod (x + 0 + 300) 300) (Int.tmod (y + 1 + 300) 300),
         get_index (Int.tmod (x + 1 + 300) 300) (Int.tmod (y + 1 + 300) 300)] := rfl
    refine ⟨rfl, by rw [hlist]; rfl, ?_⟩
    intro k hk
    rw [hlist] at hk
    have a1 := hx (-1) (by norm_num)
    have a2 := hx 0 (by norm_num)
    have a3 := hx 1 (by norm_num)
    have c1 := hy (-1) (by norm_num)
    have c2 := hy 0 (by norm_num)
    have c3 := hy 1 (by norm_num)
    simp only [List.mem_cons, List.mem_singleton, List.not_mem_nil, or_false, get_index,
      COLUMNS, ROWS] at hk ⊢
    omega

/-- C16: for every board and `int` coordinates `(x, y)` of a cell of the grid,
`put_pixel(x, y)` and `erase_pixel(x, y)` leave every index other than
`get_index(x, y)` as it was; in particular every other cell `(u, v)` of the grid holds
the same value after the call as before. -/
theorem paint_frame (board : Board F) (x y : Int)
    (hx0 : 0 ≤ x) (hx1 : x < COLUMNS) (hy0 : 0 ≤ y) (hy1 : y < ROWS) :
    (∀ k : Int, k ≠ get_index x y →
      put_pixel (CFloat.ofInt x) y board k = board k ∧ erase_pixel x y board k = board k) ∧
    (∀ u v : Int, 0 ≤ u → u < COLUMNS → 0 ≤ v → v < ROWS → ¬ (u = x ∧ v = y) →
      put_pixel (CFloat.ofInt x) y board (get_index u v) = board (get_index u v) ∧
      erase_pixel x y board (get_index u v) = board (get_index u v)) := by
  have hk : ∀ k : Int, k ≠ get_index x y →
      put_pixel (CFloat.ofInt x) y board k = board k ∧ erase_pixel x y board k = board k := by
    intro k hne
    rw [put_pixel_in_range board x y hx0 hx1 hy0 hy1,
      erase_pixel_in_range board x y hx0 hx1 hy0 hy1]
    exact ⟨write_other _ _ _ _ hne, write_other _ _ _ _ hne⟩
  refine ⟨hk, ?_⟩
  intro u v hu0 hu1 _ _ hne
  apply hk
  intro h
  exact hne (get_index_inj u v x y hu0 hu1 hx0 hx1 h)

/-- C19: `get_index(x, y) = y * COLUMNS + x` maps the cells of the grid one-to-one
onto `[0, COLUMNS * ROWS)`: it is in bounds on the grid, two cells of the grid with the
same index are the same cell, and every index of the range is the index of a cell. -/
theorem get_index_bijective :
    (∀ x y : Int, get_index x y = y * COLUMNS + x) ∧
    (∀ x y : Int, 0 ≤ x → x < COLUMNS → 0 ≤ y → y < ROWS →
      0 ≤ get_index x y ∧ get_index x y < COLUMNS * ROWS) ∧
    (∀ x y u v : Int, 0 ≤ x → x < COLUMNS → 0 ≤ y → y < ROWS →
      0 ≤ u → u < COLUMNS → 0 ≤ v → v < ROWS →
      get_index x y = get_index u v → x = u ∧ y = v) ∧
    (∀ k : Int, 0 ≤ k → k < COLUMNS * ROWS →
      ∃ x y : Int, 0 ≤ x ∧ x < COLUMNS ∧ 0 ≤ y ∧ y < ROWS ∧ get_index x y = k) := by
  refine ⟨fun _ _ => rfl, ?_, ?_, ?_⟩
  · intro x y hx0 hx1 hy0 hy1
    simp only [get_index, COLUMNS, ROWS] at *
    omega
  · intro x y u v hx0 hx1 _ _ hu0 hu1 _ _ h
    exact get_index_inj x y u v hx0 hx1 hu0 hu1 h
  · intro k hk0 hk1
    refine ⟨k % 300, k / 300, ?_⟩
    simp only [get_index, COLUMNS, ROWS] at *
    omega

/-- C14, as amended: for every `v` that is not a NaN and every `lo <= hi`,
`clamp(v, lo, hi)` lies in `[lo, hi]`, is `lo` when `v < lo`, `hi` when `v > hi` and `v`
itself when `lo <= v <= hi`, equals `max(lo, min(v, hi))`, and clamping it again changes
nothing. -/
theorem clamp_saturates (v lo hi : F) (hle : fle lo hi = true)
    (hv : CFloat.val v ≠ FVal.nan) :
    in_range (clamp v lo hi) lo hi = true ∧
      (flt v lo = true → clamp v lo hi = lo) ∧
      (flt hi v = true → clamp v lo hi = hi) ∧
      (fle lo v = true → fle v hi = true → clamp v lo hi = v) ∧
      CFloat.val (clamp v lo hi)
        = FVal.max (CFloat.val lo) (FVal.min (CFloat.val v) (CFloat.val hi)) ∧
      clamp (clamp v lo hi) lo hi = clamp v lo hi := by
  have h := clamp_outcome v lo hi hle hv (clamp v lo hi) rfl
  refine ⟨h.1, ?_, ?_, ?_, h.2.1, h.2.2⟩
  · intro h1
    simp [clamp, h1]
  · intro h2
    have h1 : flt v lo = false := by
      unfold flt fle at *
      by_cases h3 : FVal.lt (CFloat.val v) (CFloat.val lo) = true
      · have h4 := FVal.not_lt_of_lt _ _ (FVal.lt_of_lt_le _ _ _ h3 hle)
        rw [h2] at h4
        exact absurd h4 (by decide)
      · simpa using h3
    simp [clamp, h1, h2]
  · intro h1 h2
    unfold fle at h1 h2
    have a1 : flt v lo = false := FVal.not_lt_of_le _ _ h1
    have a2 : flt hi v = false := FVal.not_lt_of_le _ _ h2
    simp [clamp, a1, a2]

/-- C14 fails as stated: `clamp(NaN, 0.0, 1.0)` is NaN, which is not in `[0.0, 1.0]`
and is not `max(0.0, min(NaN, 1.0))`. -/
theorem nan_goes_through_clamp :
    fle (CFloat.ofInt 0 : FVal) (CFloat.ofInt 1) = true ∧
    clamp FVal.nan (CFloat.ofInt 0) (CFloat.ofInt 1) = FVal.nan ∧
    in_range (clamp FVal.nan (CFloat.ofInt 0) (CFloat.ofInt 1) : FVal)
      (CFloat.ofInt 0) (CFloat.ofInt 1) = false ∧
    CFloat.val (clamp FVal.nan (CFloat.ofInt 0) (CFloat.ofInt 1) : FVal)
      ≠ FVal.max (CFloat.val (CFloat.ofInt 0 : FVal))
          (FVal.min (CFloat.val FVal.nan) (CFloat.val (CFloat.ofInt 1 : FVal))) := by
  refine ⟨by decide, rfl, rfl, by decide⟩

/-- C15: for every rule, every board and every integer shift `(a, b)`, `simulation` on
the board translated by `(a, b)` on the torus yields the translation by `(a, b)` of the
board that `simulation` yields on the original, whatever the generation buffers held. -/
theorem simulation_shift_equivariant (settings : settings_t F)
    (new_board1 new_board2 board : Board F) (a b : Int) :
    simulation settings new_board1 (shift_board a b board)
      = shift_board a b (simulation settings new_board2 board) := by
  funext k
  rw [simulation_apply]
  by_cases hk : 0 ≤ k / 300 ∧ k / 300 < 300
  · have hk2 : 0 ≤ k ∧ k < COLUMNS * ROWS := by
      simp only [COLUMNS, ROWS]; omega
    have h1 := wrap_range (k % 300 - a)
    have h2 := wrap_range (k / 300 - b)
    rw [if_pos hk, shift_board_grid a b _ k hk2,
      simulation_cell settings new_board2 board (wrap (k % 300 - a) COLUMNS)
        (wrap (k / 300 - b) ROWS) h1.1 h1.2 h2.1 h2.2,
      neighbors_sum_shift settings a b board (k % 300) (k / 300) (by omega) hk.1]
  · have hk2 : ¬ (0 ≤ k ∧ k < COLUMNS * ROWS) := by
      simp only [COLUMNS, ROWS]; omega
    rw [if_neg hk, shift_board_outside a b _ k hk2, shift_board_outside a b _ k hk2,
      simulation_apply, if_neg hk]

end MoreClaims

section PresetClaims

variable {F : Type} [CFloatMath F]

/-- C17: for each of the three rules of `settings[]`, on a board whose cells are all
`0.0`, every neighbor sum is 0, the activation maps 0 to 0, and after `simulation`
every cell is still `0.0`. -/
theorem empty_board_is_fixed_point (powf : F → F → F) (hp : powf_laws powf)
    (s : settings_t F) (hs : s ∈ settings powf) (new_board0 board : Board F)
    (hz : all_zero board) (x y : Int)
    (hx0 : 0 ≤ x) (hx1 : x < COLUMNS) (hy0 : 0 ≤ y) (hy1 : y < ROWS) :
    CFloat.val (get_neighbors_sum board x y s) = FVal.fin 0 ∧
      (∀ z : F, CFloat.val z = FVal.fin 0 → CFloat.val (s.activation z) = FVal.fin 0) ∧
      CFloat.val (simulation s new_board0 board (get_index x y)) = FVal.fin 0 ∧
      all_zero (simulation s new_board0 board) := by
  have hf := preset_facts powf hp s hs
  have hcell : ∀ u v : Int, 0 ≤ u → u < COLUMNS → 0 ≤ v → v < ROWS →
      CFloat.val (simulation s new_board0 board (get_index u v)) = FVal.fin 0 := by
    intro u v hu0 hu1 hv0 hv1
    have h1 := hf.2 _ (zero_board_sum s board u v hf.1 hz hu0 hv0)
    rw [simulation_cell s new_board0 board u v hu0 hu1 hv0 hv1, clamp_val_zero _ h1]
    exact h1
  exact ⟨zero_board_sum s board x y hf.1 hz hx0 hy0, hf.2, hcell x y hx0 hx1 hy0 hy1, hcell⟩

/-- C18: each of the three kernels of `settings[]` is symmetric,
`filter[a][b] = filter[b][a]` for `a`, `b` in `0..2`, and therefore for every board and
cell `get_neighbors_sum`, which reads `filter[j + 1][i + 1]`, equals the sum that reads
`filter[i + 1][j + 1]`. -/
theorem preset_kernels_symmetric (powf : F → F → F) (s : settings_t F)
    (hs : s ∈ settings powf) :
    (∀ a b : Int, 0 ≤ a → a ≤ 2 → 0 ≤ b → b ≤ 2 → s.filter a b = s.filter b a) ∧
      (∀ (board : Board F) (x y : Int),
        get_neighbors_sum board x y s = get_neighbors_sum_transposed board x y s) :=
  ⟨preset_symmetric powf s hs,
    fun board x y => transposed_of_symmetric board s x y (preset_symmetric powf s hs)⟩

end PresetClaims

section MoreWitnesses

theorem sample_powf_laws : powf_laws sample_powf := by
  constructor
  · intro x y hy
    have hy1 : y = FVal.fin 0 := hy
    subst hy1
    rfl
  · intro x y hx hy
    have hx1 : x = FVal.fin 0 := hx
    have hy1 : y = FVal.fin 2 := hy
    subst hx1 hy1
    show sample_powf (FVal.fin 0) (FVal.fin 2) = FVal.fin 0
    have h20 : ¬ (FVal.fin 2 = FVal.fin 0) := by
      intro h
      have h1 : (2 : ℚ) = 0 := FVal.fin.inj h
      norm_num at h1
    simp only [sample_powf, if_neg h20, if_true, FVal.mul, mul_zero]

theorem const_zero_all_zero : all_zero (const_board (CFloat.ofInt 0) : Board FVal) :=
  fun _ _ _ _ _ _ => val_zero

/-- Two boards that differ at the far cell (100, 100) only give cell (2, 2) the same
value, and the two generation buffers play no part. -/
theorem simulation_local_deterministic_witness :
    (∀ d ∈ offsets, wrapped_cell (lone_board 2 2 : Board FVal) 2 2 d.1 d.2
      = wrapped_cell (write (lone_board 2 2 : Board FVal) (get_index 100 100) (FVal.fin 7))
          2 2 d.1 d.2) ∧
    simulation settings_2 (const_board FVal.nan) (lone_board 2 2 : Board FVal) (get_index 2 2)
      = simulation settings_2 (const_board (FVal.fin 5))
          (write (lone_board 2 2 : Board FVal) (get_index 100 100) (FVal.fin 7))
          (get_index 2 2) ∧
    simulation settings_2 (const_board FVal.nan) (lone_board 2 2 : Board FVal)
      = simulation settings_2 (const_board (FVal.fin 5)) (lone_board 2 2 : Board FVal) :=
  ⟨by decide,
    simulation_local_deterministic settings_2 (const_board FVal.nan) (const_board (FVal.fin 5))
      (lone_board 2 2) (write (lone_board 2 2) (get_index 100 100) (FVal.fin 7)) 2 2
      (by decide) (by decide) (by decide) (by decide) (by decide)⟩

/-- The wrap at the left edge, `v = 0`, `d = -1`, and the nine indices read for the
corner cell (0, 0). -/
theorem wrap_index_in_range_witness :
    ((1 : Int) ≤ 300 ∧ (0 : Int) ≤ 0 ∧ (0 : Int) < 300 ∧ (-1 : Int) ≤ -1 ∧ (-1 : Int) ≤ 1) ∧
    (0 ≤ Int.tmod (0 + -1 + 300) 300 ∧ Int.tmod (0 + -1 + 300) 300 < 300 ∧
      Int.tmod (0 + -1 + 300) 300 = wrap (0 + -1) 300) ∧
    ((get_neighbors_sum_traced (lone_board 2 2 : Board FVal) 0 0 settings_2).1
        = get_neighbors_sum (lone_board 2 2 : Board FVal) 0 0 settings_2 ∧
      (get_neighbors_sum_traced (lone_board 2 2 : Board FVal) 0 0 settings_2).2.length = 9 ∧
      ∀ k ∈ (get_neighbors_sum_traced (lone_board 2 2 : Board FVal) 0 0 settings_2).2,
        0 ≤ k ∧ k < COLUMNS * ROWS) :=
  ⟨by decide,
    (@wrap_index_in_range FVal _).1 300 0 (-1) (by decide) (by decide) (by decide) (by decide)
      (by decide),
    (@wrap_index_in_range FVal _).2 (lone_board 2 2) settings_2 0 0 (by decide) (by decide)
      (by decide) (by decide)⟩

/-- Clamping 5 into `[0.0, 1.0]`. -/
theorem clamp_saturates_witness :
    fle (CFloat.ofInt 0 : FVal) (CFloat.ofInt 1) = true ∧
    CFloat.val (FVal.fin 5) ≠ FVal.nan ∧
    clamp (FVal.fin 5) (CFloat.ofInt 0) (CFloat.ofInt 1) = (CFloat.ofInt 1 : FVal) ∧
    in_range (clamp (FVal.fin 5) (CFloat.ofInt 0) (CFloat.ofInt 1) : FVal)
      (CFloat.ofInt 0) (CFloat.ofInt 1) = true :=
  ⟨by decide, by decide,
    (clamp_saturates (FVal.fin 5) (CFloat.ofInt 0) (CFloat.ofInt 1) (by decide)
      (by decide)).2.2.1 (by decide),
    (clamp_saturates (FVal.fin 5) (CFloat.ofInt 0) (CFloat.ofInt 1) (by decide)
      (by decide)).1⟩

/-- Painting the corner cell (299, 299) leaves its neighbour (298, 299) alone. -/
theorem paint_frame_witness :
    ((0 : Int) ≤ 299 ∧ (299 : Int) < COLUMNS ∧ (0 : Int) ≤ 299 ∧ (299 : Int) < ROWS) ∧
    (put_pixel (CFloat.ofInt 299) 299 (lone_board 2 2 : Board FVal) (get_index 298 299)
        = (lone_board 2 2 : Board FVal) (get_index 298 299) ∧
      erase_pixel 299 299 (lone_board 2 2 : Board FVal) (get_index 298 299)
        = (lone_board 2 2 : Board FVal) (get_index 298 299)) :=
  ⟨by decide,
    (paint_frame (lone_board 2 2 : Board FVal) 299 299 (by decide) (by decide) (by decide)
      (by decide)).2 298 299 (by decide) (by decide) (by decide) (by decide) (by decide)⟩

/-- The empty board under the worms preset, at the corner cell (0, 0). -/
theorem empty_board_is_fixed_point_witness :
    powf_laws sample_powf ∧
    settings_1 sample_powf ∈ settings sample_powf ∧
    all_zero (const_board (CFloat.ofInt 0) : Board FVal) ∧
    (CFloat.val (get_neighbors_sum (const_board (CFloat.ofInt 0) : Board FVal) 0 0
        (settings_1 sample_powf)) = FVal.fin 0 ∧
      (∀ z : FVal, CFloat.val z = FVal.fin 0 →
        CFloat.val ((settings_1 sample_powf).activation z) = FVal.fin 0) ∧
      CFloat.val (simulation (settings_1 sample_powf) (const_board FVal.nan)
        (const_board (CFloat.ofInt 0) : Board FVal) (get_index 0 0)) = FVal.fin 0 ∧
      all_zero (simulation (settings_1 sample_powf) (const_board FVal.nan)
        (const_board (CFloat.ofInt 0) : Board FVal))) :=
  ⟨sample_powf_laws, by simp [settings], const_zero_all_zero,
    empty_board_is_fixed_point sample_powf sample_powf_laws (settings_1 sample_powf)
      (by simp [settings]) (const_board FVal.nan) (const_board (CFloat.ofInt 0))
      const_zero_all_zero 0 0 (by decide) (by decide) (by decide) (by decide)⟩

/-- The waves kernel is symmetric, and the two index orders give the same sum at the
corner cell (0, 0) of a board with a different value in every cell. -/
theorem preset_kernels_symmetric_witness :
    (settings_0 : settings_t FVal) ∈ settings sample_powf ∧
    (settings_0 : settings_t FVal).filter 0 1 = (settings_0 : settings_t FVal).filter 1 0 ∧
    get_neighbors_sum ramp_board 0 0 settings_0
      = get_neighbors_sum_transposed ramp_board 0 0 settings_0 :=
  ⟨by simp [settings],
    (preset_kernels_symmetric sample_powf (settings_0 : settings_t FVal)
      (by simp [settings])).1 0 1 (by decide) (by decide) (by decide) (by decide),
    (preset_kernels_symmetric sample_powf (settings_0 : settings_t FVal)
      (by simp [settings])).2 ramp_board 0 0⟩

/-- The last cell (299, 299) has the last index 89999, and conversely. -/
theorem get_index_bijective_witness :
    ((0 : Int) ≤ 299 ∧ (299 : Int) < COLUMNS ∧ (0 : Int) ≤ 299 ∧ (299 : Int) < ROWS) ∧
    (0 ≤ get_index 299 299 ∧ get_index 299 299 < COLUMNS * ROWS) ∧
    ((0 : Int) ≤ 89999 ∧ (89999 : Int) < COLUMNS * ROWS) ∧
    (∃ x y : Int, 0 ≤ x ∧ x < COLUMNS ∧ 0 ≤ y ∧ y < ROWS ∧ get_index x y = 89999) :=
  ⟨by decide,
    get_index_bijective.2.1 299 299 (by decide) (by decide) (by decide) (by decide),
    by decide,
    get_index_bijective.2.2.2 89999 (by decide) (by decide)⟩

end MoreWitnesses

section WormsReal

theorem worms_real_eq (G : ℝ) :
    activation_worms_expr Real.rpow G = -1 / (2 : ℝ) ^ ((0.6 : ℝ) * G ^ 2) + 1 := by
  unfold activation_worms_expr
  rw [Real.rpow_eq_pow, Real.rpow_eq_pow, Real.rpow_two]

theorem worms_neg_div (t : ℝ) : -1 / t = -(1 / t) := by ring

theorem worms_real_alt (G : ℝ) :
    activation_worms_expr Real.rpow G = 1 - (2 : ℝ) ^ (-((0.6 : ℝ) * G ^ 2)) := by
  rw [worms_real_eq, Real.rpow_neg (by norm_num : (0 : ℝ) ≤ 2)]
  ring

theorem worms_real_range (G : ℝ) :
    0 ≤ activation_worms_expr Real.rpow G ∧ activation_worms_expr Real.rpow G < 1 := by
  rw [worms_real_eq, worms_neg_div]
  have he : (0 : ℝ) ≤ (0.6 : ℝ) * G ^ 2 := by positivity
  have h1 : (1 : ℝ) ≤ (2 : ℝ) ^ ((0.6 : ℝ) * G ^ 2) := Real.one_le_rpow (by norm_num) he
  have h0 : (0 : ℝ) < (2 : ℝ) ^ ((0.6 : ℝ) * G ^ 2) := by linarith
  have h2 : (1 : ℝ) / (2 : ℝ) ^ ((0.6 : ℝ) * G ^ 2) ≤ 1 := by
    rw [div_le_one h0]; exact h1
  have h3 : 0 < (1 : ℝ) / (2 : ℝ) ^ ((0.6 : ℝ) * G ^ 2) := by positivity
  constructor <;> linarith

theorem worms_real_mono (G1 G2 : ℝ) (h : |G1| ≤ |G2|) :
    activation_worms_expr Real.rpow G1 ≤ activation_worms_expr Real.rpow G2 := by
  rw [worms_real_eq, worms_real_eq, worms_neg_div, worms_neg_div]
  have hsq : G1 ^ 2 ≤ G2 ^ 2 := sq_le_sq.mpr h
  have he : (0.6 : ℝ) * G1 ^ 2 ≤ (0.6 : ℝ) * G2 ^ 2 := by nlinarith
  have hp : (2 : ℝ) ^ ((0.6 : ℝ) * G1 ^ 2) ≤ (2 : ℝ) ^ ((0.6 : ℝ) * G2 ^ 2) :=
    Real.rpow_le_rpow_of_exponent_le (by norm_num) he
  have h1 : (0 : ℝ) < (2 : ℝ) ^ ((0.6 : ℝ) * G1 ^ 2) := by positivity
  have h3 : (1 : ℝ) / (2 : ℝ) ^ ((0.6 : ℝ) * G2 ^ 2) ≤ 1 / (2 : ℝ) ^ ((0.6 : ℝ) * G1 ^ 2) :=
    one_div_le_one_div_of_le h1 hp
  linarith

theorem worms_real_limit (ε : ℝ) (hε : 0 < ε) :
    ∃ M : ℝ, ∀ G : ℝ, M ≤ |G| → |activation_worms_expr Real.rpow G - 1| < ε := by
  obtain ⟨n, hn⟩ := exists_nat_gt (1 / ε)
  refine ⟨(n : ℝ) + 1, ?_⟩
  intro G hG
  have hlt1 := (worms_real_range G).2
  rw [abs_of_neg (by linarith)]
  rw [worms_real_eq, worms_neg_div]
  have hn0 : (0 : ℝ) ≤ (n : ℝ) := Nat.cast_nonneg n
  have hsq : ((n : ℝ) + 1) ^ 2 ≤ G ^ 2 := by
    have h1 : |(n : ℝ) + 1| ≤ |G| := by
      rw [abs_of_nonneg (by linarith)]; exact hG
    exact sq_le_sq.mpr h1
  have he : (n : ℝ) ≤ (0.6 : ℝ) * G ^ 2 := by nlinarith
  have hp : (2 : ℝ) ^ (n : ℝ) ≤ (2 : ℝ) ^ ((0.6 : ℝ) * G ^ 2) :=
    Real.rpow_le_rpow_of_exponent_le (by norm_num) he
  have hpow : ((n : ℝ) + 1) ≤ (2 : ℝ) ^ (n : ℝ) := by
    rw [Real.rpow_natCast]
    have h2 : n + 1 ≤ 2 ^ n := Nat.lt_two_pow n
    exact_mod_cast h2
  have hbig : 1 / ε < (2 : ℝ) ^ ((0.6 : ℝ) * G ^ 2) := by linarith
  have h0 : (0 : ℝ) < (2 : ℝ) ^ ((0.6 : ℝ) * G ^ 2) := by positivity
  have hlt : 1 / (2 : ℝ) ^ ((0.6 : ℝ) * G ^ 2) < ε := by
    rw [div_lt_iff₀ h0]
    have h4 := (div_lt_iff₀ hε).mp hbig
    linarith
  linarith

/-- The two readings are one expression: run on denotations with exact arithmetic and an
exact power, `activation_worms` returns the value of `activation_worms_expr`. -/
theorem worms_expr_exact (pow : ℚ → ℚ → ℚ) (q : ℚ) (hne : pow 2 (0.6 * pow q 2) ≠ 0) :
    activation_worms (exact_powf pow) (FVal.fin q)
      = FVal.fin (activation_worms_expr pow q) := by
  show FVal.add (FVal.div (FVal.fin ((-1 : ℤ) : ℚ))
      (exact_powf pow (FVal.fin ((2 : ℤ) : ℚ))
        (FVal.mul (FVal.fin 0.6) (exact_powf pow (FVal.fin q) (FVal.fin ((2 : ℤ) : ℚ))))))
    (FVal.fin ((1 : ℤ) : ℚ)) = _
  simp [exact_powf, FVal.mul, FVal.div, FVal.add, activation_worms_expr, hne]

end WormsReal

section WormsFloat

variable {F : Type} [CFloatIEEE F]

/-- Once the square overflows, `activation_worms` returns exactly `1.0`. -/
theorem worms_saturates (powf : F → F → F) (ho : powf_overflow_laws powf) (G : F) (q : ℚ)
    (hG : CFloat.val G = FVal.fin q)
    (hq : 340282366920938463463374607431768211456 ≤ q * q) :
    CFloat.val (activation_worms powf G) = FVal.fin 1 := by
  have h2 : CFloat.val (CFloat.ofInt 2 : F) = FVal.fin 2 := by
    have h := @CFloat.ofInt_exact F _ 2 (by norm_num) (by norm_num)
    simpa using h
  have hm1 : CFloat.val (CFloat.ofInt (-1) : F) = FVal.fin (-1) := by
    have h := @CFloat.ofInt_exact F _ (-1) (by norm_num) (by norm_num)
    simpa using h
  obtain ⟨r, hr, hr0⟩ := @CFloatIEEE.lit_pos F _ 0.6 (by norm_num) (by norm_num)
  have s1 := ho.square_overflow G (CFloat.ofInt 2) q hG h2 hq
  have s2 := CFloatIEEE.mul_pos_inf (CFloatMath.lit 0.6 : F) _ r hr hr0 s1
  have s3 := ho.two_to_inf (CFloat.ofInt 2) _ h2 s2
  have s4 := CFloatIEEE.div_by_inf (CFloat.ofInt (-1) : F) _ (-1) hm1 s3
  have s5 := CFloat.add_exact _ (CFloat.ofInt 1 : F) (CFloat.ofInt 1) 0 1 s4 val_one
    (by rw [zero_add]; exact val_one)
  rw [zero_add] at s5
  exact s5

/-- Whenever the float `2^(0.6 G^2)` that `powf` returns is plus infinity or at least
`1.0`, `activation_worms` returns a float of `[0.0, 1.0]`. -/
theorem worms_in01 (powf : F → F → F) (G : F)
    (hp : CFloat.val (worms_power powf G) = FVal.pinf ∨
      ∃ q : ℚ, CFloat.val (worms_power powf G) = FVal.fin q ∧ 1 ≤ q) :
    in01 (activation_worms powf G) = true := by
  have hm1 : CFloat.val (CFloat.ofInt (-1) : F) = FVal.fin (-1) := by
    have h := @CFloat.ofInt_exact F _ (-1) (by norm_num) (by norm_num)
    simpa using h
  have hshape : activation_worms powf G
      = CFloat.add (CFloatMath.div (CFloat.ofInt (-1)) (worms_power powf G)) (CFloat.ofInt 1) :=
    rfl
  rw [hshape]
  rcases hp with hinf | ⟨q, hq, hq1⟩
  · have s4 := CFloatIEEE.div_by_inf (CFloat.ofInt (-1) : F) _ (-1) hm1 hinf
    have s5 := CFloat.add_exact _ (CFloat.ofInt 1 : F) (CFloat.ofInt 1) 0 1 s4 val_one
      (by rw [zero_add]; exact val_one)
    rw [zero_add] at s5
    simp [in01, fle, s5, val_zero, val_one, FVal.le_fin_fin]
  · have hq0 : (0 : ℚ) < q := by linarith
    have b1 : (-1 : ℚ) ≤ -1 / q := by
      rw [le_div_iff₀ hq0]; linarith
    have b2 : (-1 : ℚ) / q ≤ 0 := by
      apply div_nonpos_of_nonpos_of_nonneg <;> linarith
    obtain ⟨r, hr, hr1, hr2⟩ := CFloatIEEE.div_between (CFloat.ofInt (-1) : F)
      (worms_power powf G) (CFloat.ofInt (-1)) (CFloat.ofInt 0) (-1) q (-1) 0 hm1 hq
      (ne_of_gt hq0) hm1 val_zero b1 b2
    obtain ⟨t, ht, ht1, ht2⟩ := CFloatIEEE.add_between
      (CFloatMath.div (CFloat.ofInt (-1) : F) (worms_power powf G)) (CFloat.ofInt 1)
      (CFloat.ofInt 0) (CFloat.ofInt 1) r 1 0 1 hr val_one val_zero val_one
      (by linarith) (by linarith)
    simp [in01, fle, ht, val_zero, val_one, FVal.le_fin_fin, ht1, ht2]

/-- With a `powf` that respects signs, `activation_worms` maps every float that is a
real number into `[0.0, 1.0]`. -/
theorem worms_range (powf : F → F → F) (hb : powf_bound_laws powf) (G : F) (q : ℚ)
    (hG : CFloat.val G = FVal.fin q) :
    in01 (activation_worms powf G) = true := by
  have h2 : CFloat.val (CFloat.ofInt 2 : F) = FVal.fin 2 := by
    have h := @CFloat.ofInt_exact F _ 2 (by norm_num) (by norm_num)
    simpa using h
  obtain ⟨c, hc, hc0⟩ := @CFloatIEEE.lit_pos F _ 0.6 (by norm_num) (by norm_num)
  apply worms_in01
  apply hb.two_pow_ge_one _ _ h2
  rcases hb.square_nonneg G (CFloat.ofInt 2) q hG h2 with hinf | ⟨r, hr, hr0⟩
  · exact Or.inl (CFloatIEEE.mul_pos_inf (CFloatMath.lit 0.6 : F) _ c hc hc0 hinf)
  · exact CFloatIEEE.mul_nonneg_cases (CFloatMath.lit 0.6 : F) _ c r hc (le_of_lt hc0) hr hr0

end WormsFloat

section WormsClaim

variable {F : Type} [CFloatIEEE F]

/-- C12, as amended: `activation_worms(0.0) = 0.0`; for every real `G` the real value
`-1/2^(0.6 G^2) + 1` of the expression that `activation_worms` evaluates equals
`1 - 2^(-0.6 G^2)`, lies in `[0, 1)`, is non-decreasing in `|G|` and approaches 1 as
`|G|` grows; the float that `activation_worms(G)` returns is exactly `1.0` once `G^2`
overflows, and for every float `G` that is a real number it lies in `[0.0, 1.0]`, the
bound `1.0` included. -/
theorem worms_activation_boundary (powf : F → F → F) (hp : powf_laws powf)
    (ho : powf_overflow_laws powf) (hb : powf_bound_laws powf) :
    (∀ z : F, CFloat.val z = FVal.fin 0 →
      CFloat.val (activation_worms powf z) = FVal.fin 0) ∧
    activation_worms_expr Real.rpow 0 = 0 ∧
    (∀ G : ℝ, activation_worms_expr Real.rpow G = -1 / (2 : ℝ) ^ ((0.6 : ℝ) * G ^ 2) + 1 ∧
      activation_worms_expr Real.rpow G = 1 - (2 : ℝ) ^ (-((0.6 : ℝ) * G ^ 2)) ∧
      0 ≤ activation_worms_expr Real.rpow G ∧ activation_worms_expr Real.rpow G < 1) ∧
    (∀ G1 G2 : ℝ, |G1| ≤ |G2| →
      activation_worms_expr Real.rpow G1 ≤ activation_worms_expr Real.rpow G2) ∧
    (∀ ε : ℝ, 0 < ε →
      ∃ M : ℝ, ∀ G : ℝ, M ≤ |G| → |activation_worms_expr Real.rpow G - 1| < ε) ∧
    (∀ (G : F) (q : ℚ), CFloat.val G = FVal.fin q →
      340282366920938463463374607431768211456 ≤ q * q →
      CFloat.val (activation_worms powf G) = FVal.fin 1) ∧
    (∀ (G : F) (q : ℚ), CFloat.val G = FVal.fin q →
      in01 (activation_worms powf G) = true) := by
  refine ⟨activation_worms_zero powf hp, ?_, ?_, worms_real_mono, worms_real_limit,
    worms_saturates powf ho, worms_range powf hb⟩
  · rw [worms_real_eq]; norm_num
  · intro G
    exact ⟨worms_real_eq G, worms_real_alt G, worms_real_range G⟩

end WormsClaim

section WormsWitness

theorem overflow_powf_laws : powf_laws overflow_powf := by
  constructor
  · intro x y hy
    have hy1 : y = FVal.fin 0 := hy
    subst hy1
    rfl
  · intro x y hx hy
    have hx1 : x = FVal.fin 0 := hx
    have hy1 : y = FVal.fin 2 := hy
    subst hx1 hy1
    show overflow_powf (FVal.fin 0) (FVal.fin 2) = FVal.fin 0
    have h20 : ¬ (FVal.fin 2 = FVal.fin 0) := by
      intro h; injection h with h1; norm_num at h1
    have hs : ¬ ((340282366920938463463374607431768211456 : ℚ) ≤ 0 * 0) := by norm_num
    simp only [overflow_powf, if_neg h20, if_true, if_neg hs]
    rw [mul_zero]

theorem overflow_powf_overflows : powf_overflow_laws overflow_powf := by
  constructor
  · intro x y q hx hy hq
    have hx1 : x = FVal.fin q := hx
    have hy1 : y = FVal.fin 2 := hy
    subst hx1 hy1
    show overflow_powf (FVal.fin q) (FVal.fin 2) = FVal.pinf
    have h20 : ¬ (FVal.fin 2 = FVal.fin 0) := by
      intro h; injection h with h1; norm_num at h1
    simp only [overflow_powf, if_neg h20, if_true, if_pos hq]
  · intro x y hx hy
    have hx1 : x = FVal.fin 2 := hx
    have hy1 : y = FVal.pinf := hy
    subst hx1 hy1
    show overflow_powf (FVal.fin 2) FVal.pinf = FVal.pinf
    have h1 : ¬ (FVal.pinf = FVal.fin 0) := by intro h; cases h
    have h2 : ¬ (FVal.pinf = FVal.fin 2) := by intro h; cases h
    simp only [overflow_powf, if_neg h1, if_neg h2, if_true]

theorem overflow_powf_bounds : powf_bound_laws overflow_powf := by
  constructor
  · intro x y q hx hy
    have hx1 : x = FVal.fin q := hx
    have hy1 : y = FVal.fin 2 := hy
    subst hx1 hy1
    have h20 : ¬ (FVal.fin 2 = FVal.fin 0) := by
      intro h; injection h with h1; norm_num at h1
    by_cases hq : (340282366920938463463374607431768211456 : ℚ) ≤ q * q
    · left
      show overflow_powf (FVal.fin q) (FVal.fin 2) = FVal.pinf
      simp only [overflow_powf, if_neg h20, if_true, if_pos hq]
    · right
      refine ⟨q * q, ?_, mul_self_nonneg q⟩
      show overflow_powf (FVal.fin q) (FVal.fin 2) = FVal.fin (q * q)
      simp only [overflow_powf, if_neg h20, if_true, if_neg hq]
  · intro x y hx hy
    have hx1 : x = FVal.fin 2 := hx
    subst hx1
    rcases hy with hy | ⟨q, hy, hq0⟩
    · have hy1 : y = FVal.pinf := hy
      subst hy1
      left
      exact overflow_powf_overflows.two_to_inf _ _ rfl rfl
    · have hy1 : y = FVal.fin q := hy
      subst hy1
      by_cases h0 : q = 0
      · subst h0
        right
        exact ⟨1, overflow_powf_laws.exponent_zero _ _ rfl, le_refl 1⟩
      · have hn0 : ¬ (FVal.fin q = FVal.fin 0) := by
          intro h; injection h with h1; exact h0 h1
        by_cases h2 : q = 2
        · subst h2
          right
          refine ⟨2 * 2, ?_, by norm_num⟩
          have hs : ¬ ((340282366920938463463374607431768211456 : ℚ) ≤ 2 * 2) := by
            norm_num
          show overflow_powf (FVal.fin 2) (FVal.fin 2) = FVal.fin (2 * 2)
          simp only [overflow_powf, if_neg hn0, if_true, if_neg hs]
        · have hn2 : ¬ (FVal.fin q = FVal.fin 2) := by
            intro h; injection h with h1; exact h2 h1
          by_cases hc : 128 ≤ Nat.ceil q
          · left
            show overflow_powf (FVal.fin 2) (FVal.fin q) = FVal.pinf
            simp only [overflow_powf, if_neg hn0, if_neg hn2, if_true, if_pos hq0, if_pos hc]
          · right
            refine ⟨2 ^ Nat.ceil q, ?_, one_le_pow₀ (by norm_num)⟩
            show overflow_powf (FVal.fin 2) (FVal.fin q) = FVal.fin (2 ^ Nat.ceil q)
            simp only [overflow_powf, if_neg hn0, if_neg hn2, if_true, if_pos hq0, if_neg hc]

/-- C12 fails as stated: `1e20f` is a real number, its square `1e40` overflows, so
`powf(1e20f, 2.0f)` is plus infinity, `0.6f * inf` is plus infinity, `powf(2.0f, inf)` is
plus infinity, `-1.0f / inf` is a zero, and `activation_worms(1e20f)` is exactly `1.0`,
which is not below `1.0`. -/
theorem worms_reaches_one :
    float_1e20 = FVal.fin 100000002004087734272 ∧
    overflow_powf float_1e20 (CFloat.ofInt 2) = FVal.pinf ∧
    worms_power overflow_powf float_1e20 = FVal.pinf ∧
    activation_worms overflow_powf float_1e20 = FVal.fin 1 ∧
    flt (activation_worms overflow_powf float_1e20) (CFloat.ofInt 1) = false := by
  have h0 : overflow_powf float_1e20 (CFloat.ofInt 2) = FVal.pinf :=
    overflow_powf_overflows.square_overflow float_1e20 (CFloat.ofInt 2)
      100000002004087734272 rfl rfl (by norm_num)
  have hw : worms_power overflow_powf float_1e20 = FVal.pinf := by
    unfold worms_power
    rw [h0]
    exact overflow_powf_overflows.two_to_inf _ _ rfl
      (CFloatIEEE.mul_pos_inf (CFloatMath.lit 0.6 : FVal) FVal.pinf 0.6 rfl
        (by norm_num) rfl)
  have h1 : activation_worms overflow_powf float_1e20 = FVal.fin 1 :=
    worms_saturates overflow_powf overflow_powf_overflows float_1e20 100000002004087734272
      rfl (by norm_num)
  refine ⟨rfl, h0, hw, h1, ?_⟩
  rw [h1]
  show FVal.lt (FVal.fin 1) (FVal.fin 1) = false
  simp [FVal.lt]

/-- The boundary theorem with `overflow_powf`: at a zero, at the real 7, at `1e20f`,
whose square overflows, and at the float `3.0`. -/
theorem worms_activation_boundary_witness :
    powf_laws overflow_powf ∧ powf_overflow_laws overflow_powf ∧
    powf_bound_laws overflow_powf ∧
    CFloat.val (activation_worms overflow_powf (FVal.fin 0)) = FVal.fin 0 ∧
    (0 ≤ activation_worms_expr Real.rpow 7 ∧ activation_worms_expr Real.rpow 7 < 1) ∧
    CFloat.val (activation_worms overflow_powf float_1e20) = FVal.fin 1 ∧
    in01 (activation_worms overflow_powf (FVal.fin 3)) = true :=
  ⟨overflow_powf_laws, overflow_powf_overflows, overflow_powf_bounds,
    (worms_activation_boundary overflow_powf overflow_powf_laws overflow_powf_overflows
      overflow_powf_bounds).1 (FVal.fin 0) rfl,
    ((worms_activation_boundary overflow_powf overflow_powf_laws overflow_powf_overflows
      overflow_powf_bounds).2.2.1 7).2.2,
    (worms_activation_boundary overflow_powf overflow_powf_laws overflow_powf_overflows
      overflow_powf_bounds).2.2.2.2.2.1 float_1e20 100000002004087734272 rfl (by norm_num),
    (worms_activation_boundary overflow_powf overflow_powf_laws overflow_powf_overflows
      overflow_powf_bounds).2.2.2.2.2.2 (FVal.fin 3) 3 rfl⟩

end WormsWitness

end NeuralAutomata
